import Mathlib

/-!
Shallow embedding of the core of `auto_stock_researcher`
(`src/scoring.py` and `src/tagger.py`), together with theorems that
settle the frozen claims about its specification.

Conventions of the embedding:
* Python `float` arithmetic is modelled by exact rationals (`ℚ`); every
  numeric literal of the source is an exact decimal, so no precision is
  lost.  Constants are written with `Rat.divInt` so that they are in
  normal form for kernel evaluation.
* Python `str` is `String`; all string manipulation is implemented over
  `List Char` (`String.data`).  `dict.get(k) or default` on missing or
  `None` fields is modelled by fields that default to `""`.
* Python `set[str]` is `Finset String`.
* `datetime` instants are modelled as seconds since the Unix epoch (`ℤ`).
* Python dicts used as ordered maps are association lists that preserve
  insertion order, as Python 3.7+ dicts do.
-/

/-- ASCII word character: the regex class `\w` restricted to ASCII, which is
all this repository's data exercises. -/
def isWordChar (c : Char) : Bool := c.isAlphanum || c = '_'

/-- Whether position `i` of `text` holds a word character (out of range: no). -/
def wordAt (text : List Char) (i : Nat) : Bool := isWordChar (text.getD i ' ')

/-- Whether a regex `\b` word boundary sits at position `i` of `text`:
the word-ness of the characters on the two sides of the position differs,
positions outside the text counting as non-word. -/
def boundaryAt (text : List Char) (i : Nat) : Bool :=
  (if i = 0 then false else wordAt text (i - 1)) != wordAt text i

/-- Character-by-character match of `term` against a prefix of `text`,
comparing with `eqc`. -/
def matchesFrom (eqc : Char → Char → Bool) : List Char → List Char → Bool
  | [], _ => true
  | _ :: _, [] => false
  | c :: cs, d :: ds => eqc c d && matchesFrom eqc cs ds

/-- Whether the literal `term` occurs at position `i` of `text` bounded by
`\b` word boundaries on both sides (the compiled pattern
`\b<escaped term>\b` of the source). -/
def termMatchAt (eqc : Char → Char → Bool) (term text : List Char) (i : Nat) : Bool :=
  matchesFrom eqc term (text.drop i) && boundaryAt text i && boundaryAt text (i + term.length)

/-- `re.search` of the word-bounded literal `term` in `text`: a match at some
position. -/
def containsTerm (eqc : Char → Char → Bool) (term text : List Char) : Bool :=
  (List.range (text.length + 1)).any (fun i => termMatchAt eqc term text i)

/-- Case-sensitive word-bounded search, as used on pre-lowercased text. -/
def containsTermCS (term text : List Char) : Bool :=
  containsTerm (fun c d => c == d) term text

/-- Case-insensitive word-bounded search (`re.IGNORECASE`). -/
def containsTermCI (term text : List Char) : Bool :=
  containsTerm (fun c d => c.toLower == d.toLower) term text

/-- Replace every maximal run of whitespace by a single space:
`re.sub(r"\s+", " ", s)`.  Implemented as mapping whitespace to `' '` and
then squeezing runs of spaces. -/
def squeezeSpaces : List Char → List Char
  | [] => []
  | [c] => [c]
  | c :: d :: rest =>
    if c = ' ' ∧ d = ' ' then squeezeSpaces (d :: rest) else c :: squeezeSpaces (d :: rest)

/-- Collapse internal whitespace, modelling `re.sub(r"\s+", " ", s)`. -/
def collapseWS (l : List Char) : List Char :=
  squeezeSpaces (l.map (fun c => if c.isWhitespace then ' ' else c))

/-- Truncate at the first ` — ` or ` - ` separator, modelling
`re.sub(r"\s+[—-]\s+.*$", "", s)` on a string whose whitespace runs have
already been collapsed to single spaces. -/
def truncAtDash : List Char → List Char
  | c :: d :: e :: rest =>
    if c = ' ' ∧ (d = '—' ∨ d = '-') ∧ e = ' ' then []
    else c :: truncAtDash (d :: e :: rest)
  | l => l

/-- Characters stripped from the right by `rstrip(" .,;:!?-–—")`. -/
def isTrailPunct (c : Char) : Bool :=
  [' ', '.', ',', ';', ':', '!', '?', '-', '–', '—'].contains c

/-- Drop the trailing characters of the `rstrip` set. -/
def rstripPunct (l : List Char) : List Char :=
  (l.reverse.dropWhile isTrailPunct).reverse

/-- Strip leading and trailing whitespace, modelling Python `str.strip()`. -/
def stripChars (l : List Char) : List Char :=
  ((l.dropWhile Char.isWhitespace).reverse.dropWhile Char.isWhitespace).reverse

/-- `str.strip()` on `String`. -/
def stringStrip (s : String) : String := ⟨stripChars s.data⟩

/-- `str.lower()` on `String` (ASCII case folding, which covers this
repository's data). -/
def stringLower (s : String) : String := ⟨s.data.map Char.toLower⟩

/-- `normalize_title` of `src/scoring.py`: lowercase, strip, collapse
whitespace, cut a trailing `— clause` / `- clause` suffix, strip trailing
punctuation. -/
def normalizeTitle (title : String) : String :=
  if title = "" then ""
  else ⟨rstripPunct (truncAtDash (collapseWS (stripChars (title.data.map Char.toLower))))⟩

/-- The `SOURCE_QUALITY` table of `src/scoring.py`, with the values as exact
rationals in normal form. -/
def SOURCE_QUALITY : List (String × ℚ) :=
  [("Reuters", Rat.divInt 100 100),
   ("Bloomberg", Rat.divInt 95 100),
   ("Financial Times", Rat.divInt 92 100),
   ("AP News", Rat.divInt 88 100),
   ("Associated Press", Rat.divInt 88 100),
   ("Wall Street Journal", Rat.divInt 90 100),
   ("CNBC", Rat.divInt 80 100),
   ("The Verge", Rat.divInt 75 100),
   ("TechCrunch", Rat.divInt 72 100),
   ("GlobeNewswire", Rat.divInt 60 100),
   ("Business Wire", Rat.divInt 60 100),
   ("Yahoo Entertainment", Rat.divInt 35 100),
   ("Biztoc.com", Rat.divInt 30 100),
   ("Thefly.com", Rat.divInt 30 100)]

/-- `DEFAULT_SOURCE_QUALITY = 0.50`. -/
def DEFAULT_SOURCE_QUALITY : ℚ := Rat.divInt 50 100

/-- `MIN_SOURCE_QUALITY = 0.50`. -/
def MIN_SOURCE_QUALITY : ℚ := Rat.divInt 50 100

/-- First-match association-list lookup, modelling a Python dict lookup. -/
def lookupStr : List (String × ℚ) → String → Option ℚ
  | [], _ => none
  | (k, v) :: rest, s => if s = k then some v else lookupStr rest s

/-- `_SOURCE_QUALITY_LOOKUP`: the quality table keyed by lowercased name. -/
def SOURCE_QUALITY_LOOKUP : List (String × ℚ) :=
  SOURCE_QUALITY.map (fun p => (stringLower p.1, p.2))

/-- `_source_quality` of `src/scoring.py`. -/
def sourceQuality (source : String) : ℚ :=
  if source = "" then DEFAULT_SOURCE_QUALITY
  else (lookupStr SOURCE_QUALITY_LOOKUP (stringLower (stringStrip source))).getD
    DEFAULT_SOURCE_QUALITY

/-- Civil date/time fields parsed from an ISO-8601 string, plus the UTC
offset in minutes when one was present. -/
structure CivilDT where
  year : Nat
  month : Nat
  day : Nat
  hour : Nat
  minute : Nat
  second : Nat
  offMinutes : Option Int
deriving DecidableEq

/-- Value of an ASCII digit. -/
def digitVal (c : Char) : Option Nat :=
  if c.isDigit then some (c.toNat - 48) else none

/-- Parse exactly two digits. -/
def parse2 : List Char → Option (Nat × List Char)
  | a :: b :: rest =>
    match digitVal a, digitVal b with
    | some x, some y => some (10 * x + y, rest)
    | _, _ => none
  | _ => none

/-- Parse exactly four digits. -/
def parse4 : List Char → Option (Nat × List Char)
  | a :: b :: c :: d :: rest =>
    match digitVal a, digitVal b, digitVal c, digitVal d with
    | some x, some y, some z, some w => some (1000 * x + 100 * y + 10 * z + w, rest)
    | _, _, _, _ => none
  | _ => none

/-- Expect a specific character. -/
def expectChar (c : Char) : List Char → Option (List Char)
  | d :: rest => if d = c then some rest else none
  | [] => none

/-- Gregorian leap year. -/
def isLeapYear (y : Nat) : Bool :=
  (y % 4 = 0 && y % 100 ≠ 0) || y % 400 = 0

/-- Number of days in a month. -/
def daysInMonth (y m : Nat) : Nat :=
  if m = 2 then (if isLeapYear y then 29 else 28)
  else if [4, 6, 9, 11].contains m then 30 else 31

/-- Parse a `±HH:MM` UTC offset that must consume the whole rest of the
string; the result is the offset in minutes. -/
def parseOffset (l : List Char) : Option Int :=
  match l with
  | s :: rest =>
    if s = '+' ∨ s = '-' then
      match parse2 rest with
      | some (hh, rest1) =>
        match expectChar ':' rest1 with
        | some rest2 =>
          match parse2 rest2 with
          | some (mm, rest3) =>
            if rest3 = [] ∧ hh ≤ 23 ∧ mm ≤ 59 then
              some ((if s = '-' then -1 else 1) * (hh * 60 + mm : Nat))
            else none
          | none => none
        | none => none
      | none => none
    else none
  | [] => none

/-- Parse `HH:MM[:SS]` and then an optional offset; the time must be valid. -/
def parseTimePart (l : List Char) : Option (Nat × Nat × Nat × Option Int) :=
  match parse2 l with
  | some (hh, rest1) =>
    match expectChar ':' rest1 with
    | some rest2 =>
      match parse2 rest2 with
      | some (mm, rest3) =>
        if hh ≤ 23 ∧ mm ≤ 59 then
          match rest3 with
          | [] => some (hh, mm, 0, none)
          | ':' :: rest4 =>
            match parse2 rest4 with
            | some (ss, rest5) =>
              if ss ≤ 59 then
                match rest5 with
                | [] => some (hh, mm, ss, none)
                | _ =>
                  match parseOffset rest5 with
                  | some off => some (hh, mm, ss, some off)
                  | none => none
              else none
            | none => none
          | _ =>
            match parseOffset rest3 with
            | some off => some (hh, mm, 0, some off)
            | none => none
        else none
      | none => none
    | none => none
  | none => none

/-- Model of `datetime.fromisoformat` for the shapes this repository feeds
it: `YYYY-MM-DD[<T or space>HH:MM[:SS]][±HH:MM]`, with all fields
range-checked; any other input is a `ValueError`, i.e. `none`. -/
def fromisoformatChars (l : List Char) : Option CivilDT :=
  match parse4 l with
  | some (y, rest1) =>
    if y = 0 then none
    else
      match expectChar '-' rest1 with
      | some rest2 =>
        match parse2 rest2 with
        | some (m, rest3) =>
          if 1 ≤ m ∧ m ≤ 12 then
            match expectChar '-' rest3 with
            | some rest4 =>
              match parse2 rest4 with
              | some (d, rest5) =>
                if 1 ≤ d ∧ d ≤ daysInMonth y m then
                  match rest5 with
                  | [] => some ⟨y, m, d, 0, 0, 0, none⟩
                  | sep :: rest6 =>
                    if sep = 'T' ∨ sep = ' ' then
                      match parseTimePart rest6 with
                      | some (hh, mm, ss, off) => some ⟨y, m, d, hh, mm, ss, off⟩
                      | none => none
                    else none
                else none
              | none => none
            | none => none
          else none
        | none => none
      | none => none
  | none => none

/-- Days from the epoch 1970-01-01 of the civil date `y-m-d` (`y ≥ 1`,
month and day already validated); the standard era-based algorithm. -/
def daysFromCivil (y m d : Nat) : Int :=
  let yAdj : Nat := if m ≤ 2 then y - 1 else y
  let era : Nat := yAdj / 400
  let yoe : Nat := yAdj % 400
  let mp : Nat := (m + 9) % 12
  let doy : Nat := (153 * mp + 2) / 5 + d - 1
  let doe : Nat := yoe * 365 + yoe / 4 - yoe / 100 + doy
  (era : Int) * 146097 + (doe : Int) - 719468

/-- Instant of a parsed civil date/time in seconds since the Unix epoch,
folding in the UTC offset; a naive result is treated as UTC, as the source
does with `dt.replace(tzinfo=timezone.utc)`. -/
def civilToUTC (c : CivilDT) : Int :=
  daysFromCivil c.year c.month c.day * 86400
    + c.hour * 3600 + c.minute * 60 + c.second
    - (c.offMinutes.getD 0) * 60

/-- `value.replace("Z", "+00:00")` (every occurrence, as `str.replace` does). -/
def replaceZChars : List Char → List Char
  | [] => []
  | c :: rest =>
    if c = 'Z' then '+' :: '0' :: '0' :: ':' :: '0' :: '0' :: replaceZChars rest
    else c :: replaceZChars rest

/-- `_parse_datetime` of `src/scoring.py`: empty input and parse failures
fall back to the Unix epoch (0); otherwise the UTC instant in seconds. -/
def parseDatetime (value : String) : Int :=
  if value = "" then 0
  else
    match fromisoformatChars (replaceZChars value.data) with
    | none => 0
    | some c => civilToUTC c

/-- `POSITIVE_KEYWORDS` of `src/scoring.py`. -/
def POSITIVE_KEYWORDS : List String :=
  ["beats", "record", "upgrade", "raise", "surge",
   "strong", "growth", "profit", "accretive", "win"]

/-- `NEGATIVE_KEYWORDS` of `src/scoring.py`. -/
def NEGATIVE_KEYWORDS : List String :=
  ["lawsuit", "probe", "miss", "downgrade", "cut",
   "shortfall", "recall", "fraud", "decline", "weak"]

/-- `_keyword_hits`: the set of vocabulary words found word-bounded in the
(already lowercased) text. -/
def keywordHits (text : String) (keywords : List String) : Finset String :=
  (keywords.filter (fun k => containsTermCS k.data text.data)).toFinset

/-- A raw article as consumed by the pipeline: the dict fields used by
`score_day` and `link_articles_to_tickers`, with missing/`None` values
modelled as `""` (the code reads every field as `article.get(k) or ""`). -/
structure RawArticle where
  title : String
  summary : String
  description : String
  body : String
  url : String
  source : String
  published_at : String
  tickers : List String
deriving DecidableEq, Inhabited, Repr

/-- The per ticker-article scoring record built by `score_day`'s intake
loop (the `info` dict). -/
structure Info where
  ticker : String
  source : String
  source_quality : ℚ
  title : String
  normalized_title : String
  url : String
  published_at : String
  published_at_dt : Int
  positive_hits : Finset String
  negative_hits : Finset String
deriving DecidableEq, Inhabited

/-- A `{url, published_at}` evidence link of an Idea. -/
structure Link where
  url : String
  published_at : String
deriving DecidableEq, Inhabited, Repr

/-- An output Idea of `score_day`. -/
structure Idea where
  ticker : String
  score : ℚ
  why : List String
  links : List Link
deriving DecidableEq, Inhabited

/-- Join the non-empty strings with single spaces: `" ".join(p for p in parts
if p)`. -/
def joinSpace : List String → String
  | [] => ""
  | [s] => s
  | s :: rest => s ++ " " ++ joinSpace rest

/-- The resolved source name of an article:
`str(article.get("source") or "").strip() or "Unknown Source"`. -/
def resolvedSource (a : RawArticle) : String :=
  if stringStrip a.source = "" then "Unknown Source" else stringStrip a.source

/-- The lowercased sentiment text of an article: title (stripped), summary,
description and body, the non-empty ones joined by spaces. -/
def sentimentText (a : RawArticle) : String :=
  stringLower (joinSpace (([stringStrip a.title, a.summary, a.description,
    a.body]).filter (fun p => p ≠ "")))

/-- The scoring record `score_day` builds for one article and one ticker. -/
def mkInfo (a : RawArticle) (t : String) : Info :=
  { ticker := t
    source := resolvedSource a
    source_quality := sourceQuality (resolvedSource a)
    title := stringStrip a.title
    normalized_title := normalizeTitle (stringStrip a.title)
    url := stringStrip a.url
    published_at := stringStrip a.published_at
    published_at_dt := parseDatetime (stringStrip a.published_at)
    positive_hits := keywordHits (sentimentText a) POSITIVE_KEYWORDS
    negative_hits := keywordHits (sentimentText a) NEGATIVE_KEYWORDS }

/-- Append `i` to the group of key `t` of the insertion-ordered map `m`,
creating the group at the end when absent (`defaultdict(list)` behaviour of
a Python 3.7+ dict). -/
def pushTicker (m : List (String × List Info)) (t : String) (i : Info) :
    List (String × List Info) :=
  match m with
  | [] => [(t, [i])]
  | (k, l) :: rest => if k = t then (k, l ++ [i]) :: rest else (k, l) :: pushTicker rest t i

/-- One step of `score_day`'s intake loop: skip articles without tickers,
apply the `MIN_SOURCE_QUALITY` gate, and append the scoring record to every
tagged ticker's group. -/
def perTickerStep (m : List (String × List Info)) (a : RawArticle) :
    List (String × List Info) :=
  if a.tickers = [] then m
  else if sourceQuality (resolvedSource a) < MIN_SOURCE_QUALITY then m
  else a.tickers.foldl (fun acc t => pushTicker acc t (mkInfo a t)) m

/-- The `per_ticker` map of `score_day` in key-insertion order. -/
def perTicker (tagged : List RawArticle) : List (String × List Info) :=
  tagged.foldl perTickerStep []

/-- State of `_dedupe_articles`: the `unique` list and the two key
indices. -/
structure DState where
  unique : List Info
  tIdx : String → Option Nat
  uIdx : String → Option Nat

/-- The empty dedup state. -/
def dedupeInit : DState := ⟨[], fun _ => none, fun _ => none⟩

/-- `_is_candidate_better` of `src/scoring.py` (both dicts always carry the
`source_quality` and `published_at_dt` keys, so the `.get` defaults never
fire). -/
def isCandidateBetter (candidate existing : Info) : Bool :=
  if candidate.source_quality ≠ existing.source_quality then
    decide (candidate.source_quality > existing.source_quality)
  else decide (candidate.published_at_dt > existing.published_at_dt)

/-- Point update of an index map. -/
def updIdx (f : String → Option Nat) (k : String) (v : Nat) : String → Option Nat :=
  fun s => if s = k then some v else f s

/-- The slot lookup of `_dedupe_articles`: the title index is consulted
first (for a non-empty normalized title), the url index only when that
misses. -/
def dedupeLookup (s : DState) (a : Info) : Option Nat :=
  match (if a.normalized_title ≠ "" then s.tIdx a.normalized_title else none) with
  | some i => some i
  | none => if a.url ≠ "" then s.uIdx a.url else none

/-- One iteration of `_dedupe_articles`: merge into the looked-up slot
(keeping the better of the two) or append a fresh slot; in both cases
re-point the indices of the article's non-empty keys at that slot. -/
def dedupeStep (s : DState) (a : Info) : DState :=
  match dedupeLookup s a with
  | none =>
    ⟨s.unique ++ [a],
     if a.normalized_title ≠ "" then updIdx s.tIdx a.normalized_title s.unique.length
       else s.tIdx,
     if a.url ≠ "" then updIdx s.uIdx a.url s.unique.length else s.uIdx⟩
  | some i =>
    ⟨if isCandidateBetter a (s.unique.getD i default) then s.unique.set i a else s.unique,
     if a.normalized_title ≠ "" then updIdx s.tIdx a.normalized_title i else s.tIdx,
     if a.url ≠ "" then updIdx s.uIdx a.url i else s.uIdx⟩

/-- The final dedup state over an article list. -/
def dedupeRun (articles : List Info) : DState :=
  articles.foldl dedupeStep dedupeInit

/-- `_dedupe_articles` of `src/scoring.py`. -/
def dedupeArticles (articles : List Info) : List Info :=
  (dedupeRun articles).unique

/-- Insert `x` into the key-descending sorted list `l`, after every element
whose key is at least `k x`; the insertion step of a stable descending
sort. -/
def insertKeyD {α : Type} {β : Type} [LinearOrder β] (k : α → β) (x : α) :
    List α → List α
  | [] => [x]
  | y :: ys => if k x ≤ k y then y :: insertKeyD k x ys else x :: y :: ys

/-- Stable sort by key, descending: the behaviour of Python
`sorted(l, key=k, reverse=True)` (equal keys keep their input order). -/
def sortKeyD {α : Type} {β : Type} [LinearOrder β] (k : α → β) (l : List α) : List α :=
  l.foldl (fun acc x => insertKeyD k x acc) []

/-- Round half-to-even to an integer, Python's `round` on an exact value. -/
def roundHalfEven (q : ℚ) : ℤ :=
  if q - ⌊q⌋ < 1/2 then ⌊q⌋
  else if 1/2 < q - ⌊q⌋ then ⌊q⌋ + 1
  else if ⌊q⌋ % 2 = 0 then ⌊q⌋ else ⌊q⌋ + 1

/-- `round(x, 4)` on an exact value. -/
def round4 (q : ℚ) : ℚ := (roundHalfEven (q * 10000) : ℚ) / 10000

/-- `max(0.0, min(1.0, score))`. -/
def clampScore (q : ℚ) : ℚ := max 0 (min 1 q)

/-- The union of positive keyword hits across the deduplicated articles
(each keyword counted once). -/
def unionPos (deduped : List Info) : Finset String :=
  deduped.foldl (fun s i => s ∪ i.positive_hits) ∅

/-- The union of negative keyword hits across the deduplicated articles. -/
def unionNeg (deduped : List Info) : Finset String :=
  deduped.foldl (fun s i => s ∪ i.negative_hits) ∅

/-- `top_sources`: the top 2 deduplicated articles by source quality,
descending (Python's stable sort). -/
def topSources (deduped : List Info) : List Info :=
  (sortKeyD (fun i => i.source_quality) deduped).take 2

/-- `top_quality_avg` (also `avg_quality`): the mean source quality of
`top_sources`, 0 when there are none. -/
def topQualityAvg (deduped : List Info) : ℚ :=
  if topSources deduped = [] then 0
  else ((topSources deduped).map (fun i => i.source_quality)).sum
    / ((topSources deduped).length : ℚ)

/-- `source_boost = (avg_quality - 0.5) * 0.4` when there are top sources,
else 0. -/
def sourceBoost (deduped : List Info) : ℚ :=
  if topSources deduped = [] then 0
  else (topQualityAvg deduped - 1/2) * (4/10)

/-- The `q_in_title` flag: the lowercased ticker found word-bounded in some
non-empty normalized title. -/
def qInTitle (ticker : String) (deduped : List Info) : Bool :=
  deduped.any (fun i =>
    i.normalized_title ≠ "" && containsTermCS (stringLower ticker).data i.normalized_title.data)

/-- The unclamped composite score of `score_day` for one ticker's
deduplicated articles. -/
def compositeScore (ticker : String) (deduped : List Info) : ℚ :=
  let n := deduped.length
  let base : ℚ := if n ≥ 2 then 3/10 else 1/10
  let posBonus : ℚ := min (2/10) ((5/100) * ((unionPos deduped).card : ℚ))
  let negPenalty : ℚ := min (2/10) ((5/100) * ((unionNeg deduped).card : ℚ))
  let s0 := base + posBonus - negPenalty + sourceBoost deduped
  let s1 := if qInTitle ticker deduped then s0 + 5/100 else s0
  if n ≥ 3 then s1 + 5/100 else s1

/-- The `why` reason list of `score_day` for one ticker. -/
def whyList (ticker : String) (deduped : List Info) : List String :=
  let n := deduped.length
  let tq := topQualityAvg deduped
  let why0 : List String :=
    if n ≥ 3 then
      (if tq ≥ 3/4 then [s!"{n} high-quality sources"] else [s!"{n} confirming articles"])
    else if n = 2 then
      (if tq ≥ 3/4 then ["2 high-quality sources"] else ["2 sources"])
    else
      (if tq ≥ 3/4 then ["Premium single-source"] else ["Single-source read"])
  let why1 :=
    if (unionPos deduped) ≠ ∅ then
      why0 ++ [s!"{(unionPos deduped).card} positive keywords"]
    else why0
  let why2 := if qInTitle ticker deduped then why1 ++ ["qInTitle match"] else why1
  let why3 :=
    if (unionNeg deduped) ≠ ∅ ∧ why2.length < 3 then
      why2 ++ [s!"{(unionNeg deduped).card} negative keywords"]
    else why2
  why3.take 3

/-- The key articles are sorted by for the links:
`(source_quality, published_at_dt)` descending, lexicographically. -/
def linkKey (i : Info) : Lex (ℚ × ℤ) := toLex (i.source_quality, i.published_at_dt)

/-- The deduplicated articles sorted for link selection. -/
def sortedForLinks (deduped : List Info) : List Info := sortKeyD linkKey deduped

/-- The link of an article. -/
def linkOf (i : Info) : Link := ⟨i.url, i.published_at⟩

/-- The link-collection loop of `score_day`: walk the sorted articles,
skip empty urls, stop once `cap` links are collected. -/
def collectLinks (cap : Nat) : List Info → List Link
  | [] => []
  | i :: rest =>
    if cap = 0 then []
    else if i.url = "" then collectLinks cap rest
    else linkOf i :: collectLinks (cap - 1) rest

/-- The body of `score_day`'s per-ticker loop: `None` when the deduplicated
list is empty (`if not deduped: continue`), else the emitted Idea. -/
def scoreTicker (ticker : String) (articles : List Info) : Option Idea :=
  let deduped := dedupeArticles articles
  if deduped = [] then none
  else some
    { ticker := ticker
      score := round4 (clampScore (compositeScore ticker deduped))
      why := whyList ticker deduped
      links := collectLinks 5 (sortedForLinks deduped) }

/-- The idea list before the final sort, in `per_ticker` key order. -/
def ideasUnsorted (tagged : List RawArticle) : List Idea :=
  (perTicker tagged).filterMap (fun p => scoreTicker p.1 p.2)

/-- `score_day` of `src/scoring.py`: ideas sorted by score descending with
Python's stable sort. -/
def scoreDay (tagged : List RawArticle) : List Idea :=
  sortKeyD (fun i => i.score) (ideasUnsorted tagged)

/-- A row of the universe CSV, already split into its three columns
(missing columns are `""`). -/
structure UniverseRow where
  ticker : String
  name : String
  aliases : String
deriving DecidableEq, Inhabited, Repr

/-- The fatal error of the tagger: the source raises `FileNotFoundError`
when the universe file does not exist. -/
inductive TagError where
  | fileNotFound
deriving DecidableEq, Repr

/-- Split on `';'` (Python `str.split(";")`, keeping empty pieces). -/
def splitSemi : List Char → List (List Char)
  | [] => [[]]
  | c :: rest =>
    if c = ';' then [] :: splitSemi rest
    else
      match splitSemi rest with
      | g :: gs => (c :: g) :: gs
      | [] => [[c]]

/-- The match terms compiled for one universe row: the stripped ticker, the
stripped name when non-empty, and each stripped non-empty alias.  The source
collects them into a `set`; duplicates are harmless here because matching
only asks whether *some* term matches. -/
def rowTerms (r : UniverseRow) : List String :=
  let t := stringStrip r.ticker
  let n := stringStrip r.name
  let als := stringStrip r.aliases
  let aliasTerms :=
    if als = "" then []
    else ((splitSemi als.data).map (fun l => stringStrip ⟨l⟩)).filter (fun s => s ≠ "")
  [t] ++ (if n ≠ "" then [n] else []) ++ aliasTerms

/-- Insert or overwrite a key of an insertion-ordered dict (Python dict
assignment keeps the original position of an existing key). -/
def upsert : List (String × List String) → String → List String →
    List (String × List String)
  | [], k, v => [(k, v)]
  | (k0, v0) :: rest, k, v =>
    if k0 = k then (k, v) :: rest else (k0, v0) :: upsert rest k v

/-- One row's contribution to the matcher dict: rows with an empty
(stripped) ticker are skipped, later rows overwrite earlier ones with the
same ticker. -/
def matchersStep (m : List (String × List String)) (r : UniverseRow) :
    List (String × List String) :=
  if stringStrip r.ticker = "" then m else upsert m (stringStrip r.ticker) (rowTerms r)

/-- The matcher dict built from the universe rows. -/
def matchersOf (rows : List UniverseRow) : List (String × List String) :=
  rows.foldl matchersStep []

/-- `_read_universe` of `src/tagger.py`, with the file system modelled as an
`Option`: `none` is a missing file (`FileNotFoundError`), `some rows` the
parsed CSV rows. -/
def readUniverse (contents : Option (List UniverseRow)) :
    Except TagError (List (String × List String)) :=
  match contents with
  | none => .error .fileNotFound
  | some rows => .ok (matchersOf rows)

/-- Whether some term of the row matches the text, word-bounded and
case-insensitively (`any(pattern.search(text) for pattern in patterns)`). -/
def anyTermMatches (terms : List String) (text : String) : Bool :=
  terms.any (fun t => containsTermCI t.data text.data)

/-- The tagging of one article: match every ticker's patterns against
`f"{title} {body}"` and attach the sorted deduplicated ticker list. -/
def tagArticle (matchers : List (String × List String)) (a : RawArticle) : RawArticle :=
  let text := a.title ++ " " ++ a.body
  let tickers := matchers.filterMap
    (fun p => if anyTermMatches p.2 text then some p.1 else none)
  { a with tickers := sortKeyD (fun s => OrderDual.toDual s) tickers.dedup }

/-- `link_articles_to_tickers` of `src/tagger.py`. -/
def linkArticlesToTickers (articles : List RawArticle)
    (univ : Option (List UniverseRow)) : Except TagError (List RawArticle) :=
  match readUniverse univ with
  | .error e => .error e
  | .ok matchers => .ok (articles.map (tagArticle matchers))

def Mden (q : ℚ) : Prop := ∃ z : ℤ, q * 10000 = z

/-- The inductive invariant of `_dedupe_articles` after processing the
prefix `P` of the input: index values are in range, every index key is
witnessed by a processed article, the occupant of a slot with a non-empty
title owns the title-index entry for it, and every occupant is a processed
article. -/
structure DedupInv (P : List Info) (s : DState) : Prop where
  range_t : ∀ t k, s.tIdx t = some k → k < s.unique.length
  range_u : ∀ u k, s.uIdx u = some k → k < s.unique.length
  wit_t : ∀ t k, s.tIdx t = some k → t ≠ "" ∧ ∃ p ∈ P, p.normalized_title = t
  wit_u : ∀ u k, s.uIdx u = some k → u ≠ "" ∧ ∃ p ∈ P, p.url = u
  self_t : ∀ k, k < s.unique.length → (s.unique.getD k default).normalized_title ≠ "" →
    s.tIdx ((s.unique.getD k default).normalized_title) = some k
  occ : ∀ x ∈ s.unique, x ∈ P

/-- Two scoring records collide in `_dedupe_articles`: they share a
non-empty normalized title or a non-empty url. -/
def SharesKey (a b : Info) : Prop :=
  (a.normalized_title ≠ "" ∧ a.normalized_title = b.normalized_title)
  ∨ (a.url ≠ "" ∧ a.url = b.url)

instance (a b : Info) : Decidable (SharesKey a b) := by
  unfold SharesKey
  infer_instance

/-- An article of `l` that collides with no other article of `l`: the only
occurrence of `l` it shares a key with is itself (an article with a
non-empty key always shares with itself, so the count is at most one exactly
when nothing else collides with it). -/
def LonerIn (l : List Info) (a : Info) : Prop :=
  l.countP (fun b => decide (SharesKey a b)) ≤ 1

instance (l : List Info) (a : Info) : Decidable (LonerIn l a) := by
  unfold LonerIn
  infer_instance

/-- The loner-tracking invariant: after processing the prefix `P`, there is
a strictly increasing list of slots whose occupants are exactly the loners
of `P` in order, and no index entry points at such a slot except under the
occupant's own keys. -/
def LonerState (l P : List Info) (s : DState) : Prop :=
  ∃ ks : List Nat,
    ks.Pairwise (· < ·) ∧
    (∀ k ∈ ks, k < s.unique.length) ∧
    ks.map (fun k => s.unique.getD k default) = P.filter (fun a => decide (LonerIn l a)) ∧
    (∀ k ∈ ks,
      (∀ t j, s.tIdx t = some j → j = k → t = (s.unique.getD k default).normalized_title) ∧
      (∀ u j, s.uIdx u = some j → j = k → u = (s.unique.getD k default).url))

/-- The quality gate of `score_day` as a predicate on tagged articles. -/
def passesGate (a : RawArticle) : Bool :=
  !(decide (sourceQuality (resolvedSource a) < MIN_SOURCE_QUALITY))

/-- One article's contribution to the first-seen ticker order: tickers of
gate-passing tagged articles, first occurrence first. -/
def firstSeenStep (acc : List String) (a : RawArticle) : List String :=
  if a.tickers = [] then acc
  else if sourceQuality (resolvedSource a) < MIN_SOURCE_QUALITY then acc
  else a.tickers.foldl (fun acc t => if t ∈ acc then acc else acc ++ [t]) acc

/-- The tickers in the order their first gate-passing tagged article
appears. -/
def firstSeenTickers (tagged : List RawArticle) : List String :=
  tagged.foldl firstSeenStep []

/-- A quality value with at most two decimal digits. -/
def isCenti (q : ℚ) : Prop := ∃ z : ℤ, q = (z : ℚ) / 100

/-- The score formula exactly as the specification states it: base score by
article count, capped union keyword bonuses, source boost from the mean
quality of the top 2 articles by source quality, the two 0.05 extras, all
clamped to [0, 1]. -/
def specScore (ticker : String) (ds : List Info) : ℚ :=
  let n := ds.length
  let base : ℚ := if 2 ≤ n then 30/100 else 10/100
  let posBonus : ℚ := min (20/100) ((5/100) * ((unionPos ds).card : ℚ))
  let negPenalty : ℚ := min (20/100) ((5/100) * ((unionNeg ds).card : ℚ))
  let top := (sortKeyD (fun i => i.source_quality) ds).take 2
  let avgQ : ℚ := (top.map (fun i => i.source_quality)).sum / (top.length : ℚ)
  let qin : Bool := ds.any (fun i =>
    containsTermCS (stringLower ticker).data i.normalized_title.data)
  clampScore (base + posBonus - negPenalty + (avgQ - 5/10) * (4/10)
    + (if qin then 5/100 else 0) + (if 3 ≤ n then 5/100 else 0))

/-- The specification's collision policy: prefer strictly higher
`source_quality`, then later `published_at_parsed`; otherwise keep the
earlier article. -/
def specPreferred (first second : Info) : Info :=
  if first.source_quality < second.source_quality
      ∨ (first.source_quality = second.source_quality
          ∧ first.published_at_dt < second.published_at_dt) then second
  else first

/-- The stripped non-empty tickers of the universe rows, in order. -/
def processedTickers (rows : List UniverseRow) : List String :=
  (rows.map (fun r => stringStrip r.ticker)).filter (fun t => t ≠ "")

/-- A single qualifying tagged article. -/
def exSingle : RawArticle := ⟨"Quarterly note", "", "", "", "u", "Reuters", "", ["MEGA"]⟩

/-- A gated AAA article, then one qualifying article each for BBB and AAA. -/
def exAG : RawArticle := ⟨"Gated title", "", "", "", "", "Biztoc.com", "", ["AAA"]⟩

/-- A qualifying BBB article. -/
def exAR1 : RawArticle := ⟨"B one", "", "", "", "", "Reuters", "", ["BBB"]⟩

/-- A qualifying AAA article. -/
def exAR2 : RawArticle := ⟨"B two", "", "", "", "", "Reuters", "", ["AAA"]⟩

/-- AAA appears first in the tagged input, but only on the gated article. -/
def exC9 : List RawArticle := [exAG, exAR1, exAR2]

/-- Article with title `Alpha sync` and url `u1` from a 0.60 source. -/
def exB1 : RawArticle := ⟨"Alpha sync", "", "", "", "u1", "Business Wire", "", ["MEGA"]⟩

/-- Article with title `Beta` and url `u2` from a 0.80 source. -/
def exB2 : RawArticle := ⟨"Beta", "", "", "", "u2", "CNBC", "", ["MEGA"]⟩

/-- Article sharing `exB1`'s title and `exB2`'s url, from a 1.00 source. -/
def exB3 : RawArticle := ⟨"Alpha sync", "", "", "", "u2", "Reuters", "", ["MEGA"]⟩

/-- A per-ticker batch in which a title merge strands a duplicate url. -/
def exC1 : List RawArticle := [exB1, exB2, exB3]

/-- Scoring record with title key `t1` and url key `u1`, quality 0.60. -/
def exI1 : Info := ⟨"MEGA", "Business Wire", Rat.divInt 60 100, "T1", "t1", "u1", "", 0, ∅, ∅⟩

/-- Scoring record with title key `t2` and url key `u2`, quality 0.80. -/
def exI2 : Info := ⟨"MEGA", "CNBC", Rat.divInt 80 100, "T2", "t2", "u2", "", 0, ∅, ∅⟩

/-- Scoring record sharing `exI1`'s title key and `exI2`'s url key. -/
def exI3 : Info := ⟨"MEGA", "Reuters", Rat.divInt 100 100, "T1b", "t1", "u2", "", 0, ∅, ∅⟩

/-- Universe rows for the tagging witnesses. -/
def exRows : List UniverseRow := [⟨"AAPL", "Apple Inc", "Apple"⟩, ⟨"MSFT", "Microsoft", ""⟩]

/-- An article mentioning Apple and Microsoft. -/
def exTagArt : RawArticle :=
  ⟨"Apple and Microsoft extend rally", "", "", "strong growth", "", "", "", []⟩

/-- An article whose source is not in the quality table. -/
def exUnknown : RawArticle := ⟨"Note", "", "", "", "", "Some Blog", "", ["XYZ"]⟩

/-- The idea `score_day` emits for the BBB group of `exC9`. -/
def exIdeaB : Idea :=
  ⟨"BBB", round4 (clampScore (compositeScore "BBB" (dedupeArticles [mkInfo exAR1 "BBB"]))),
   whyList "BBB" (dedupeArticles [mkInfo exAR1 "BBB"]),
   collectLinks 5 (sortedForLinks (dedupeArticles [mkInfo exAR1 "BBB"]))⟩

/-- The idea `score_day` emits for the AAA group of `exC9`. -/
def exIdeaA : Idea :=
  ⟨"AAA", round4 (clampScore (compositeScore "AAA" (dedupeArticles [mkInfo exAR2 "AAA"]))),
   whyList "AAA" (dedupeArticles [mkInfo exAR2 "AAA"]),
   collectLinks 5 (sortedForLinks (dedupeArticles [mkInfo exAR2 "AAA"]))⟩

/-! The development: theorems about the embedded program. -/

variable {α β : Type} [LinearOrder β] (k : α → β)

theorem insertKeyD_perm (x : α) (l : List α) :
    List.Perm (insertKeyD k x l) (x :: l) := by
  induction l with
  | nil => rfl
  | cons y ys ih =>
    by_cases h : k x ≤ k y
    · simpa [insertKeyD, h] using ((ih.cons y).trans (List.Perm.swap x y ys))
    · simp [insertKeyD, h]

theorem foldl_insertKeyD_perm (l acc : List α) :
    List.Perm (l.foldl (fun acc x => insertKeyD k x acc) acc) (acc ++ l) := by
  induction l generalizing acc with
  | nil => simp
  | cons x xs ih =>
    refine ((ih (insertKeyD k x acc)).trans ?_)
    refine (((insertKeyD_perm k x acc).append_right xs).trans ?_)
    simpa using (List.perm_middle : List.Perm (acc ++ x :: xs) (x :: (acc ++ xs))).symm

theorem sortKeyD_perm (l : List α) : List.Perm (sortKeyD k l) l := by
  simpa using foldl_insertKeyD_perm k l []

theorem mem_sortKeyD (x : α) (l : List α) : x ∈ sortKeyD k l ↔ x ∈ l :=
  (sortKeyD_perm k l).mem_iff

theorem insertKeyD_pairwise (x : α) (l : List α)
    (h : l.Pairwise (fun a b => k b ≤ k a)) :
    (insertKeyD k x l).Pairwise (fun a b => k b ≤ k a) := by
  induction l with
  | nil => simp [insertKeyD]
  | cons y ys ih =>
    rcases (List.pairwise_cons.mp h) with ⟨hy, hys⟩
    by_cases hle : k x ≤ k y
    · rw [insertKeyD, if_pos hle]
      refine List.pairwise_cons.mpr ⟨?_, ih hys⟩
      intro z hz
      rcases List.mem_cons.mp ((insertKeyD_perm k x ys).mem_iff.mp hz) with rfl | hz'
      · exact hle
      · exact hy z hz'
    · rw [insertKeyD, if_neg hle]
      refine List.pairwise_cons.mpr ⟨?_, h⟩
      intro z hz
      rcases List.mem_cons.mp hz with rfl | hz'
      · exact le_of_lt (lt_of_not_le hle)
      · exact le_trans (hy z hz') (le_of_lt (lt_of_not_le hle))

theorem sortKeyD_pairwise (l : List α) :
    (sortKeyD k l).Pairwise (fun a b => k b ≤ k a) := by
  suffices h : ∀ acc : List α, acc.Pairwise (fun a b => k b ≤ k a) →
      (l.foldl (fun acc x => insertKeyD k x acc) acc).Pairwise (fun a b => k b ≤ k a) by
    exact h [] (by simp)
  induction l with
  | nil => intro acc h; simpa using h
  | cons x xs ih => intro acc h; exact ih _ (insertKeyD_pairwise k x acc h)

theorem insertKeyD_filter_eq (x : α) (l : List α) (c : β)
    (h : l.Pairwise (fun a b => k b ≤ k a)) :
    (insertKeyD k x l).filter (fun z => k z = c) =
      l.filter (fun z => k z = c) ++ (if k x = c then [x] else []) := by
  induction l with
  | nil => by_cases hc : k x = c <;> simp [insertKeyD, hc]
  | cons y ys ih =>
    rcases (List.pairwise_cons.mp h) with ⟨hy, hys⟩
    by_cases hle : k x ≤ k y
    · rw [insertKeyD, if_pos hle, List.filter_cons, List.filter_cons, ih hys]
      by_cases hyc : k y = c <;> simp [hyc]
    · have hlt : k y < k x := lt_of_not_le hle
      rw [insertKeyD, if_neg hle]
      by_cases hc : k x = c
      · have h1 : (y :: ys).filter (fun z => (k z = c : Bool)) = [] := by
          refine List.filter_eq_nil_iff.mpr ?_
          intro z hz
          have hzy : k z ≤ k y := by
            rcases List.mem_cons.mp hz with rfl | hz2
            · exact le_refl _
            · exact hy z hz2
          simp only [decide_eq_true_eq]
          intro hzc
          exact absurd (lt_of_le_of_lt hzy hlt) (by rw [hzc, hc]; exact lt_irrefl c)
        rw [List.filter_cons]
        simp only [decide_eq_true_eq, hc]
        rw [h1]
        simp
      · rw [List.filter_cons]
        simp only [decide_eq_true_eq, hc]
        simp

theorem sortKeyD_filter_eq (l : List α) (c : β) :
    (sortKeyD k l).filter (fun z => k z = c) = l.filter (fun z => k z = c) := by
  suffices h : ∀ acc : List α, acc.Pairwise (fun a b => k b ≤ k a) →
      (l.foldl (fun acc x => insertKeyD k x acc) acc).filter (fun z => k z = c)
        = acc.filter (fun z => k z = c) ++ l.filter (fun z => k z = c) by
    simpa using h [] (by simp)
  induction l with
  | nil => intro acc h; simp
  | cons x xs ih =>
    intro acc h
    have := ih (insertKeyD k x acc) (insertKeyD_pairwise k x acc h)
    rw [List.foldl_cons, this, insertKeyD_filter_eq k x acc c h, List.filter_cons]
    by_cases hc : k x = c <;> simp [hc]

theorem roundHalfEven_intCast (z : ℤ) : roundHalfEven (z : ℚ) = z := by
  unfold roundHalfEven
  norm_num

theorem roundHalfEven_nonneg (q : ℚ) (h : 0 ≤ q) : 0 ≤ roundHalfEven q := by
  have hf : (0 : ℤ) ≤ ⌊q⌋ := Int.floor_nonneg.mpr h
  unfold roundHalfEven
  split
  · exact hf
  · split
    · omega
    · split <;> omega

theorem roundHalfEven_le (q : ℚ) (B : ℤ) (h : q ≤ B) : roundHalfEven q ≤ B := by
  have hf : ⌊q⌋ ≤ B := by simpa using Int.floor_le_floor h
  have hkey : ¬ (q - ⌊q⌋ < 1/2) → ⌊q⌋ < B := by
    intro hr
    rcases lt_or_eq_of_le hf with h2 | h2
    · exact h2
    · exfalso
      apply hr
      have hq : q ≤ (⌊q⌋ : ℚ) := by rw [h2]; exact_mod_cast h
      have : q - ⌊q⌋ ≤ 0 := by linarith
      linarith
  unfold roundHalfEven
  split
  · exact hf
  · rename_i h1
    have := hkey h1
    split
    · omega
    · split <;> omega

theorem round4_eq_self (q : ℚ) (h : ∃ z : ℤ, q * 10000 = z) : round4 q = q := by
  rcases h with ⟨z, hz⟩
  unfold round4
  rw [hz, roundHalfEven_intCast, ← hz]
  field_simp

theorem round4_bounds (q : ℚ) (h0 : 0 ≤ q) (h1 : q ≤ 1) :
    0 ≤ round4 q ∧ round4 q ≤ 1 := by
  have hl : (0 : ℤ) ≤ roundHalfEven (q * 10000) := by
    apply roundHalfEven_nonneg; positivity
  have hu : roundHalfEven (q * 10000) ≤ (10000 : ℤ) := by
    apply roundHalfEven_le
    push_cast
    linarith
  constructor
  · unfold round4; positivity
  · unfold round4
    rw [div_le_one (by norm_num)]
    exact_mod_cast hu

theorem clampScore_bounds (q : ℚ) : 0 ≤ clampScore q ∧ clampScore q ≤ 1 := by
  unfold clampScore
  refine ⟨le_max_left 0 _, ?_⟩
  apply max_le (by norm_num)
  exact min_le_left 1 q

theorem Mden_add (a b : ℚ) (ha : Mden a) (hb : Mden b) : Mden (a + b) := by
  rcases ha with ⟨x, hx⟩; rcases hb with ⟨y, hy⟩
  exact ⟨x + y, by push_cast; linarith⟩

theorem Mden_sub (a b : ℚ) (ha : Mden a) (hb : Mden b) : Mden (a - b) := by
  rcases ha with ⟨x, hx⟩; rcases hb with ⟨y, hy⟩
  exact ⟨x - y, by push_cast; linarith⟩

theorem Mden_min (a b : ℚ) (ha : Mden a) (hb : Mden b) : Mden (min a b) := by
  rcases le_total a b with h | h
  · rwa [min_eq_left h]
  · rwa [min_eq_right h]

theorem Mden_max (a b : ℚ) (ha : Mden a) (hb : Mden b) : Mden (max a b) := by
  rcases le_total a b with h | h
  · rwa [max_eq_right h]
  · rwa [max_eq_left h]

theorem Mden_ite (c : Prop) [Decidable c] (a b : ℚ) (ha : Mden a) (hb : Mden b) :
    Mden (if c then a else b) := by
  split <;> assumption

theorem Mden_clamp (q : ℚ) (h : Mden q) : Mden (clampScore q) := by
  unfold clampScore
  exact Mden_max _ _ ⟨0, by norm_num⟩ (Mden_min _ _ ⟨10000, by norm_num⟩ h)

theorem round4_Mden (q : ℚ) : Mden (round4 q) := by
  exact ⟨roundHalfEven (q * 10000), by unfold round4; field_simp⟩

theorem getD_append_self (l : List Info) (a d : Info) : (l ++ [a]).getD l.length d = a := by
  rw [List.getD_append_right l [a] d l.length (le_refl _)]
  simp

theorem getD_set_self (l : List Info) (i : Nat) (a d : Info) (h : i < l.length) :
    (l.set i a).getD i d = a := by
  rw [List.getD_eq_getElem _ _ (by simpa using h)]
  exact List.getElem_set_self _

theorem getD_set_ne (l : List Info) (i j : Nat) (a d : Info) (h : i ≠ j) :
    (l.set i a).getD j d = l.getD j d := by
  by_cases hj : j < l.length
  · rw [List.getD_eq_getElem _ _ (by simpa using hj), List.getD_eq_getElem _ _ hj]
    exact List.getElem_set_ne h _
  · rw [List.getD_eq_default _ _ (by simpa using not_lt.mp hj),
      List.getD_eq_default _ _ (not_lt.mp hj)]

theorem dedupeInv_init : DedupInv [] dedupeInit := by
  constructor
  all_goals intro x
  all_goals simp_all [dedupeInit]

/-- What a `none` lookup says about the two indices. -/
theorem dedupeLookup_none (s : DState) (a : Info) (h : dedupeLookup s a = none) :
    (a.normalized_title ≠ "" → s.tIdx a.normalized_title = none)
    ∧ (a.url ≠ "" → s.uIdx a.url = none) := by
  unfold dedupeLookup at h
  constructor
  · intro ht
    rcases hcase : s.tIdx a.normalized_title with _ | i
    · rfl
    · rw [if_pos ht, hcase] at h
      exact absurd h (by simp)
  · intro hu
    rcases hcase : (if a.normalized_title ≠ "" then s.tIdx a.normalized_title else none)
      with _ | i
    · rw [hcase] at h
      simpa [hu] using h
    · rw [hcase] at h
      exact absurd h (by simp)

/-- What a `some` lookup says: a title hit, or a title miss and a url hit. -/
theorem dedupeLookup_some (s : DState) (a : Info) (i : Nat)
    (h : dedupeLookup s a = some i) :
    (a.normalized_title ≠ "" ∧ s.tIdx a.normalized_title = some i)
    ∨ ((a.normalized_title ≠ "" → s.tIdx a.normalized_title = none)
        ∧ a.url ≠ "" ∧ s.uIdx a.url = some i) := by
  unfold dedupeLookup at h
  rcases hcase : (if a.normalized_title ≠ "" then s.tIdx a.normalized_title else none)
    with _ | j
  · right
    rw [hcase] at h
    refine ⟨?_, ?_⟩
    · intro ht
      rw [if_pos ht] at hcase
      exact hcase
    · by_cases hu : a.url ≠ ""
      · rw [if_pos hu] at h
        exact ⟨hu, h⟩
      · rw [if_neg hu] at h
        exact absurd h (by simp)
  · left
    rw [hcase] at h
    simp only [Option.some.injEq] at h
    subst h
    by_cases ht : a.normalized_title ≠ ""
    · rw [if_pos ht] at hcase
      exact ⟨ht, hcase⟩
    · rw [if_neg ht] at hcase
      exact absurd hcase (by simp)

theorem dedupeStep_none (s : DState) (a : Info) (h : dedupeLookup s a = none) :
    dedupeStep s a =
      ⟨s.unique ++ [a],
       if a.normalized_title ≠ "" then updIdx s.tIdx a.normalized_title s.unique.length
         else s.tIdx,
       if a.url ≠ "" then updIdx s.uIdx a.url s.unique.length else s.uIdx⟩ := by
  unfold dedupeStep
  rw [h]

theorem dedupeStep_some (s : DState) (a : Info) (i : Nat) (h : dedupeLookup s a = some i) :
    dedupeStep s a =
      ⟨if isCandidateBetter a (s.unique.getD i default) then s.unique.set i a else s.unique,
       if a.normalized_title ≠ "" then updIdx s.tIdx a.normalized_title i else s.tIdx,
       if a.url ≠ "" then updIdx s.uIdx a.url i else s.uIdx⟩ := by
  unfold dedupeStep
  rw [h]

theorem updIdx_lookup (f : String → Option Nat) (c : Prop) [Decidable c]
    (key t : String) (v k : Nat)
    (h : (if c then updIdx f key v else f) t = some k) :
    (c ∧ t = key ∧ k = v) ∨ f t = some k := by
  by_cases hc : c
  · rw [if_pos hc] at h
    unfold updIdx at h
    by_cases ht : t = key
    · rw [if_pos ht] at h
      exact Or.inl ⟨hc, ht, (Option.some.injEq _ _).mp h.symm⟩
    · rw [if_neg ht] at h
      exact Or.inr h
  · rw [if_neg hc] at h
    exact Or.inr h

theorem updIdx_self (f : String → Option Nat) (key : String) (v : Nat) :
    updIdx f key v key = some v := by
  unfold updIdx
  rw [if_pos rfl]

theorem updIdx_other (f : String → Option Nat) (key t : String) (v : Nat) (h : t ≠ key) :
    updIdx f key v t = f t := by
  unfold updIdx
  rw [if_neg h]

theorem ite_updIdx_self (f : String → Option Nat) (c : Prop) [Decidable c]
    (key : String) (v : Nat) (hc : c) :
    (if c then updIdx f key v else f) key = some v := by
  rw [if_pos hc]
  exact updIdx_self f key v

theorem ite_updIdx_other (f : String → Option Nat) (c : Prop) [Decidable c]
    (key t : String) (v : Nat) (h : t ≠ key) :
    (if c then updIdx f key v else f) t = f t := by
  by_cases hc : c
  · rw [if_pos hc]
    exact updIdx_other f key t v h
  · rw [if_neg hc]

theorem dedupeInv_step (P : List Info) (s : DState) (a : Info) (h : DedupInv P s) :
    DedupInv (P ++ [a]) (dedupeStep s a) := by
  rcases hlook : dedupeLookup s a with _ | i
  · obtain ⟨htl, hul⟩ := dedupeLookup_none s a hlook
    rw [dedupeStep_none s a hlook]
    refine ⟨?_, ?_, ?_, ?_, ?_, ?_⟩ <;> dsimp only
    · intro t k hk
      rcases updIdx_lookup _ _ _ _ _ _ hk with ⟨_, _, rfl⟩ | hold
      · simp
      · have := h.range_t t k hold
        simp only [List.length_append, List.length_cons, List.length_nil]
        omega
    · intro u k hk
      rcases updIdx_lookup _ _ _ _ _ _ hk with ⟨_, _, rfl⟩ | hold
      · simp
      · have := h.range_u u k hold
        simp only [List.length_append, List.length_cons, List.length_nil]
        omega
    · intro t k hk
      rcases updIdx_lookup _ _ _ _ _ _ hk with ⟨hc, rfl, rfl⟩ | hold
      · exact ⟨hc, a, by simp, rfl⟩
      · obtain ⟨hne, p, hp, hpt⟩ := h.wit_t t k hold
        exact ⟨hne, p, List.mem_append.mpr (Or.inl hp), hpt⟩
    · intro u k hk
      rcases updIdx_lookup _ _ _ _ _ _ hk with ⟨hc, rfl, rfl⟩ | hold
      · exact ⟨hc, a, by simp, rfl⟩
      · obtain ⟨hne, p, hp, hpt⟩ := h.wit_u u k hold
        exact ⟨hne, p, List.mem_append.mpr (Or.inl hp), hpt⟩
    · intro k hk htt
      by_cases hkn : k < s.unique.length
      · rw [List.getD_append _ _ _ _ hkn] at htt ⊢
        have hold := h.self_t k hkn htt
        have hne : (s.unique.getD k default).normalized_title ≠ a.normalized_title := by
          intro heq
          have hta : a.normalized_title ≠ "" := heq ▸ htt
          have hnone := htl hta
          rw [← heq] at hnone
          rw [hold] at hnone
          exact absurd hnone (by simp)
        rw [ite_updIdx_other _ _ _ _ _ hne]
        exact hold
      · have hk1 : k = s.unique.length := by
          have : k < s.unique.length + 1 := by simpa using hk
          omega
        subst hk1
        rw [getD_append_self] at htt ⊢
        exact ite_updIdx_self _ _ _ _ htt
    · intro x hx
      rcases List.mem_append.mp hx with hx | hx
      · exact List.mem_append.mpr (Or.inl (h.occ x hx))
      · exact List.mem_append.mpr (Or.inr hx)
  · have hi : i < s.unique.length := by
      rcases dedupeLookup_some s a i hlook with ⟨_, hidx⟩ | ⟨_, _, hidx⟩
      · exact h.range_t _ _ hidx
      · exact h.range_u _ _ hidx
    rw [dedupeStep_some s a i hlook]
    have hlen : (if isCandidateBetter a (s.unique.getD i default) then s.unique.set i a
        else s.unique).length = s.unique.length := by
      split
      · exact List.length_set _ _ _
      · rfl
    have hocc_ne : ∀ k, k ≠ i →
        (if isCandidateBetter a (s.unique.getD i default) then s.unique.set i a
          else s.unique).getD k default = s.unique.getD k default := by
      intro k hk
      split
      · exact getD_set_ne _ _ _ _ _ (fun he => hk he.symm)
      · rfl
    have hocc_i : (if isCandidateBetter a (s.unique.getD i default) then s.unique.set i a
        else s.unique).getD i default = a ∨
        (if isCandidateBetter a (s.unique.getD i default) then s.unique.set i a
          else s.unique).getD i default = s.unique.getD i default := by
      split
      · exact Or.inl (getD_set_self _ _ _ _ hi)
      · exact Or.inr rfl
    have hmem : ∀ x ∈ (if isCandidateBetter a (s.unique.getD i default) then s.unique.set i a
        else s.unique), x ∈ s.unique ∨ x = a := by
      intro x hx
      rcases hcond : isCandidateBetter a (s.unique.getD i default) with _ | _
      · rw [if_neg (by rw [hcond]; simp)] at hx
        exact Or.inl hx
      · rw [if_pos hcond] at hx
        exact List.mem_or_eq_of_mem_set hx
    refine ⟨?_, ?_, ?_, ?_, ?_, ?_⟩ <;> dsimp only
    · intro t k hk
      rcases updIdx_lookup _ _ _ _ _ _ hk with ⟨_, _, rfl⟩ | hold
      · rw [hlen]; exact hi
      · rw [hlen]; exact h.range_t t k hold
    · intro u k hk
      rcases updIdx_lookup _ _ _ _ _ _ hk with ⟨_, _, rfl⟩ | hold
      · rw [hlen]; exact hi
      · rw [hlen]; exact h.range_u u k hold
    · intro t k hk
      rcases updIdx_lookup _ _ _ _ _ _ hk with ⟨hc, rfl, _⟩ | hold
      · exact ⟨hc, a, List.mem_append.mpr (Or.inr (by simp)), rfl⟩
      · obtain ⟨hne, p, hp, hpt⟩ := h.wit_t t k hold
        exact ⟨hne, p, List.mem_append.mpr (Or.inl hp), hpt⟩
    · intro u k hk
      rcases updIdx_lookup _ _ _ _ _ _ hk with ⟨hc, rfl, _⟩ | hold
      · exact ⟨hc, a, List.mem_append.mpr (Or.inr (by simp)), rfl⟩
      · obtain ⟨hne, p, hp, hpt⟩ := h.wit_u u k hold
        exact ⟨hne, p, List.mem_append.mpr (Or.inl hp), hpt⟩
    · intro k hk htt
      by_cases hki : k = i
      · subst hki
        rcases hocc_i with hcase | hcase
        · rw [hcase] at htt ⊢
          exact ite_updIdx_self _ _ _ _ htt
        · rw [hcase] at htt ⊢
          have hold := h.self_t k hi htt
          by_cases heq : (s.unique.getD k default).normalized_title = a.normalized_title
          · rw [heq]
            exact ite_updIdx_self _ _ _ _ (heq ▸ htt)
          · rw [ite_updIdx_other _ _ _ _ _ heq]
            exact hold
      · have hkn : k < s.unique.length := by
          rw [hlen] at hk
          exact hk
        rw [hocc_ne k hki] at htt ⊢
        have hold := h.self_t k hkn htt
        have hne : (s.unique.getD k default).normalized_title ≠ a.normalized_title := by
          intro heq
          have hta : a.normalized_title ≠ "" := heq ▸ htt
          have hk2 : s.tIdx a.normalized_title = some k := heq ▸ hold
          rcases dedupeLookup_some s a i hlook with ⟨_, hidx⟩ | ⟨htmiss, _, _⟩
          · rw [hidx] at hk2
            exact hki ((Option.some.injEq _ _).mp hk2.symm)
          · rw [htmiss hta] at hk2
            cases hk2
        rw [ite_updIdx_other _ _ _ _ _ hne]
        exact hold
    · intro x hx
      rcases hmem x hx with hx2 | hx2
      · exact List.mem_append.mpr (Or.inl (h.occ x hx2))
      · exact List.mem_append.mpr (Or.inr (by simp [hx2]))

theorem dedupeInv_fold (R P : List Info) (s : DState) (h : DedupInv P s) :
    DedupInv (P ++ R) (R.foldl dedupeStep s) := by
  induction R generalizing P s with
  | nil => simpa using h
  | cons a R ih =>
    have h1 := dedupeInv_step P s a h
    have h2 := ih (P ++ [a]) (dedupeStep s a) h1
    simpa using h2

theorem dedupeInv_run (l : List Info) : DedupInv l (dedupeRun l) := by
  have := dedupeInv_fold l [] dedupeInit dedupeInv_init
  simpa [dedupeRun] using this

/-- Every deduplicated representative is one of the input articles. -/
theorem mem_of_mem_dedupeArticles (l : List Info) (x : Info)
    (h : x ∈ dedupeArticles l) : x ∈ l :=
  (dedupeInv_run l).occ x h

/-- No two representatives share a non-empty normalized title. -/
theorem dedupeArticles_titles_pairwise (l : List Info) :
    (dedupeArticles l).Pairwise (fun a b =>
      a.normalized_title = "" ∨ a.normalized_title ≠ b.normalized_title) := by
  rw [List.pairwise_iff_get]
  intro i j hij
  by_cases ht : ((dedupeArticles l).get i).normalized_title = ""
  · exact Or.inl ht
  · right
    intro heq
    have hinv := dedupeInv_run l
    have hgi : (dedupeArticles l).get i = (dedupeRun l).unique.getD i default := by
      rw [List.getD_eq_getElem _ _ (by exact i.isLt)]
      rfl
    have hgj : (dedupeArticles l).get j = (dedupeRun l).unique.getD j default := by
      rw [List.getD_eq_getElem _ _ (by exact j.isLt)]
      rfl
    have hsi := hinv.self_t i (by exact i.isLt) (by rw [← hgi]; exact ht)
    have htj : ((dedupeRun l).unique.getD j default).normalized_title ≠ "" := by
      rw [← hgj, ← heq]
      exact ht
    have hsj := hinv.self_t j (by exact j.isLt) htj
    rw [← hgi] at hsi
    rw [← hgj] at hsj
    rw [heq] at hsi
    rw [hsj] at hsi
    have : (j : Nat) = (i : Nat) := (Option.some.injEq _ _).mp hsi
    omega

theorem dedupeStep_length_mono (s : DState) (a : Info) :
    s.unique.length ≤ (dedupeStep s a).unique.length := by
  rcases hlook : dedupeLookup s a with _ | i
  · rw [dedupeStep_none s a hlook]
    simp
  · rw [dedupeStep_some s a i hlook]
    dsimp only
    split
    · rw [List.length_set]
    · exact le_refl _

theorem foldl_dedupe_length_mono (R : List Info) (s : DState) :
    s.unique.length ≤ (R.foldl dedupeStep s).unique.length := by
  induction R generalizing s with
  | nil => exact le_refl _
  | cons a R ih => exact le_trans (dedupeStep_length_mono s a) (ih (dedupeStep s a))

/-- Deduplicating a non-empty list yields a non-empty list. -/
theorem dedupeArticles_ne_nil (l : List Info) (h : l ≠ []) : dedupeArticles l ≠ [] := by
  rcases l with _ | ⟨x, rest⟩
  · exact absurd rfl h
  · have h1 : (dedupeStep dedupeInit x).unique.length = 1 := by
      have hlook : dedupeLookup dedupeInit x = none := by
        simp [dedupeLookup, dedupeInit]
      rw [dedupeStep_none _ _ hlook]
      simp [dedupeInit]
    have h2 := foldl_dedupe_length_mono rest (dedupeStep dedupeInit x)
    rw [h1] at h2
    intro hcon
    have : (dedupeArticles (x :: rest)).length = 0 := by rw [hcon]; rfl
    unfold dedupeArticles dedupeRun at this
    rw [List.foldl_cons] at this
    omega

theorem sharesKey_self_of (v x : Info) (h : SharesKey v x) : SharesKey v v := by
  rcases h with ⟨hne, _⟩ | ⟨hne, _⟩
  · exact Or.inl ⟨hne, rfl⟩
  · exact Or.inr ⟨hne, rfl⟩

/-- An article that shares a key with an earlier article is not a loner. -/
theorem not_loner_of_share_processed (l P R : List Info) (a p : Info)
    (hl : l = P ++ a :: R) (hp : p ∈ P) (hs : SharesKey a p) : ¬ LonerIn l a := by
  unfold LonerIn
  rw [hl, List.countP_append, List.countP_cons]
  have h1 : 0 < P.countP (fun b => decide (SharesKey a b)) :=
    List.countP_pos.mpr ⟨p, hp, by simpa using hs⟩
  have h2 : (if decide (SharesKey a a) = true then 1 else 0) = 1 := by
    simp [sharesKey_self_of a p hs]
  omega

/-- An earlier loner shares a key with no later article. -/
theorem not_loner_of_processed_share (l P R : List Info) (a v : Info)
    (hl : l = P ++ a :: R) (hv : v ∈ P) (hs : SharesKey v a) : ¬ LonerIn l v := by
  unfold LonerIn
  rw [hl, List.countP_append, List.countP_cons]
  have h1 : 0 < P.countP (fun b => decide (SharesKey v b)) :=
    List.countP_pos.mpr ⟨v, hv, by simpa using sharesKey_self_of v a hs⟩
  have h2 : (if decide (SharesKey v a) = true then 1 else 0) = 1 := by
    simp [hs]
  omega

/-- Selecting elements at strictly increasing in-range positions yields a
sublist. -/
theorem map_getD_sublist {α : Type} (d : α) :
    ∀ (u : List α) (ks : List Nat), ks.Pairwise (· < ·) → (∀ k ∈ ks, k < u.length) →
      List.Sublist (ks.map (fun k => u.getD k d)) u := by
  intro u
  induction u with
  | nil =>
    intro ks _ hb
    rcases ks with _ | ⟨k, ks2⟩
    · exact List.nil_sublist []
    · exact absurd (hb k (by simp)) (by simp)
  | cons x u2 ih =>
    intro ks hp hb
    rcases ks with _ | ⟨k, ks2⟩
    · exact List.nil_sublist _
    · rcases (List.pairwise_cons.mp hp) with ⟨hk, hks2⟩
      have hshift : ∀ (js : List Nat), (∀ j ∈ js, 1 ≤ j) →
          js.map (fun j => (x :: u2).getD j d) =
            (js.map (fun j => j - 1)).map (fun j => u2.getD j d) := by
        intro js hall
        rw [List.map_map]
        apply List.map_congr_left
        intro j hj
        have hj1 : 1 ≤ j := hall j hj
        have hj2 : j = (j - 1) + 1 := by omega
        rw [hj2, List.getD_cons_succ]
        simp
      rcases k with _ | k2
      · have hall : ∀ j ∈ ks2, 1 ≤ j := by
          intro j hj
          have := hk j hj
          omega
        have hsub : List.Sublist ((ks2.map (fun j => j - 1)).map (fun j => u2.getD j d)) u2 := by
          apply ih
          · rw [List.pairwise_map]
            apply hks2.imp_of_mem
            intro b c hb2 hc hbc
            have h1 : 1 ≤ b := hall b hb2
            omega
          · intro j hj
            rcases List.mem_map.mp hj with ⟨j0, hj0, rfl⟩
            have := hb j0 (by simp [hj0])
            have h1 : 1 ≤ j0 := hall j0 hj0
            simp at this
            omega
        rw [List.map_cons, hshift ks2 hall]
        exact List.Sublist.cons₂ x hsub
      · have hall : ∀ j ∈ (k2 + 1) :: ks2, 1 ≤ j := by
          intro j hj
          rcases List.mem_cons.mp hj with rfl | hj2
          · omega
          · have := hk j hj2
            omega
        have hsub : List.Sublist ((((k2 + 1) :: ks2).map (fun j => j - 1)).map
            (fun j => u2.getD j d)) u2 := by
          apply ih
          · rw [List.pairwise_map]
            apply hp.imp_of_mem
            intro b c hb2 hc hbc
            have h1 : 1 ≤ b := hall b hb2
            have h2 : 1 ≤ c := hall c hc
            omega
          · intro j hj
            rcases List.mem_map.mp hj with ⟨j0, hj0, rfl⟩
            have := hb j0 hj0
            have h1 : 1 ≤ j0 := hall j0 hj0
            simp at this
            omega
        rw [hshift ((k2 + 1) :: ks2) hall]
        exact List.Sublist.cons x hsub

theorem lonerState_init (l : List Info) : LonerState l [] dedupeInit := by
  exact ⟨[], by simp, by simp, by simp, by simp⟩

theorem lonerState_step (l P R : List Info) (a : Info) (s : DState)
    (hl : l = P ++ a :: R) (hbase : DedupInv P s) (hL : LonerState l P s) :
    LonerState l (P ++ [a]) (dedupeStep s a) := by
  obtain ⟨ks, hpair, hbound, hmap, hprot⟩ := hL
  have hoccL : ∀ k ∈ ks,
      (s.unique.getD k default) ∈ P ∧ LonerIn l (s.unique.getD k default) := by
    intro k hk
    have h1 : s.unique.getD k default ∈ ks.map (fun k => s.unique.getD k default) :=
      List.mem_map_of_mem _ hk
    rw [hmap] at h1
    have h2 := List.mem_filter.mp h1
    exact ⟨h2.1, by simpa using h2.2⟩
  rcases hlook : dedupeLookup s a with _ | i
  · -- fresh slot
    obtain ⟨htl, hul⟩ := dedupeLookup_none s a hlook
    rw [dedupeStep_none s a hlook]
    by_cases haL : LonerIn l a
    · refine ⟨ks ++ [s.unique.length], ?_, ?_, ?_, ?_⟩ <;> dsimp only
      · rw [List.pairwise_append]
        exact ⟨hpair, by simp, by intro b hb c hc; simp at hc; rw [hc]; exact hbound b hb⟩
      · intro k hk
        rcases List.mem_append.mp hk with hk2 | hk2
        · have := hbound k hk2
          simp only [List.length_append, List.length_cons, List.length_nil]
          omega
        · simp at hk2
          rw [hk2]
          simp
      · rw [List.map_append, List.filter_append]
        congr 1
        · rw [← hmap]
          apply List.map_congr_left
          intro k hk
          exact List.getD_append _ _ _ _ (hbound k hk)
        · simp only [List.map_cons, List.map_nil, List.filter_cons]
          rw [getD_append_self]
          simp [haL]
      · intro k hk
        rcases List.mem_append.mp hk with hk2 | hk2
        · have hkn := hbound k hk2
          rw [List.getD_append _ _ _ _ hkn]
          constructor
          · intro t j hj hjk
            rcases updIdx_lookup _ _ _ _ _ _ hj with ⟨_, _, hv⟩ | hold
            · omega
            · exact (hprot k hk2).1 t j hold hjk
          · intro u j hj hjk
            rcases updIdx_lookup _ _ _ _ _ _ hj with ⟨_, _, hv⟩ | hold
            · omega
            · exact (hprot k hk2).2 u j hold hjk
        · simp at hk2
          subst hk2
          rw [getD_append_self]
          constructor
          · intro t j hj hjk
            rcases updIdx_lookup _ _ _ _ _ _ hj with ⟨_, ht, _⟩ | hold
            · exact ht
            · have := hbase.range_t t j hold
              omega
          · intro u j hj hjk
            rcases updIdx_lookup _ _ _ _ _ _ hj with ⟨_, hu, _⟩ | hold
            · exact hu
            · have := hbase.range_u u j hold
              omega
    · refine ⟨ks, hpair, ?_, ?_, ?_⟩ <;> dsimp only
      · intro k hk
        have := hbound k hk
        simp only [List.length_append, List.length_cons, List.length_nil]
        omega
      · rw [List.filter_append]
        simp only [List.filter_cons, List.filter_nil]
        rw [if_neg (by simpa using haL)]
        rw [List.append_nil, ← hmap]
        apply List.map_congr_left
        intro k hk
        exact List.getD_append _ _ _ _ (hbound k hk)
      · intro k hk
        have hkn := hbound k hk
        rw [List.getD_append _ _ _ _ hkn]
        constructor
        · intro t j hj hjk
          rcases updIdx_lookup _ _ _ _ _ _ hj with ⟨_, _, hv⟩ | hold
          · omega
          · exact (hprot k hk).1 t j hold hjk
        · intro u j hj hjk
          rcases updIdx_lookup _ _ _ _ _ _ hj with ⟨_, _, hv⟩ | hold
          · omega
          · exact (hprot k hk).2 u j hold hjk
  · -- merge
    have hi : i < s.unique.length := by
      rcases dedupeLookup_some s a i hlook with ⟨_, hidx⟩ | ⟨_, _, hidx⟩
      · exact hbase.range_t _ _ hidx
      · exact hbase.range_u _ _ hidx
    have hiks : i ∉ ks := by
      intro hik
      obtain ⟨hoP, hoL⟩ := hoccL i hik
      rcases dedupeLookup_some s a i hlook with ⟨ht, hidx⟩ | ⟨_, hu, hidx⟩
      · have heq := (hprot i hik).1 a.normalized_title i hidx rfl
        have hshare : SharesKey (s.unique.getD i default) a := by
          left
          rw [← heq]
          exact ⟨ht, rfl⟩
        exact not_loner_of_processed_share l P R a _ hl hoP hshare hoL
      · have heq := (hprot i hik).2 a.url i hidx rfl
        have hshare : SharesKey (s.unique.getD i default) a := by
          right
          rw [← heq]
          exact ⟨hu, rfl⟩
        exact not_loner_of_processed_share l P R a _ hl hoP hshare hoL
    have haNL : ¬ LonerIn l a := by
      rcases dedupeLookup_some s a i hlook with ⟨ht, hidx⟩ | ⟨_, hu, hidx⟩
      · obtain ⟨_, p, hp, hpt⟩ := hbase.wit_t _ _ hidx
        exact not_loner_of_share_processed l P R a p hl hp (Or.inl ⟨ht, hpt.symm⟩)
      · obtain ⟨_, p, hp, hpu⟩ := hbase.wit_u _ _ hidx
        exact not_loner_of_share_processed l P R a p hl hp (Or.inr ⟨hu, hpu.symm⟩)
    rw [dedupeStep_some s a i hlook]
    have hocc_ne : ∀ k, k ≠ i →
        (if isCandidateBetter a (s.unique.getD i default) then s.unique.set i a
          else s.unique).getD k default = s.unique.getD k default := by
      intro k hk
      split
      · exact getD_set_ne _ _ _ _ _ (fun he => hk he.symm)
      · rfl
    have hlen : (if isCandidateBetter a (s.unique.getD i default) then s.unique.set i a
        else s.unique).length = s.unique.length := by
      split
      · exact List.length_set _ _ _
      · rfl
    refine ⟨ks, hpair, ?_, ?_, ?_⟩ <;> dsimp only
    · intro k hk
      rw [hlen]
      exact hbound k hk
    · have hfa : List.filter (fun b => decide (LonerIn l b)) (P ++ [a])
          = List.filter (fun b => decide (LonerIn l b)) P := by
        rw [List.filter_append]
        simp only [List.filter_cons, List.filter_nil]
        rw [if_neg (by simpa using haNL), List.append_nil]
      rw [hfa, ← hmap]
      apply List.map_congr_left
      intro k hk
      exact hocc_ne k (fun he => hiks (he ▸ hk))
    · intro k hk
      have hkne : k ≠ i := fun he => hiks (he ▸ hk)
      rw [hocc_ne k hkne]
      constructor
      · intro t j hj hjk
        rcases updIdx_lookup _ _ _ _ _ _ hj with ⟨_, _, hv⟩ | hold
        · exact absurd (hjk ▸ hv) (by omega)
        · exact (hprot k hk).1 t j hold hjk
      · intro u j hj hjk
        rcases updIdx_lookup _ _ _ _ _ _ hj with ⟨_, _, hv⟩ | hold
        · exact absurd (hjk ▸ hv) (by omega)
        · exact (hprot k hk).2 u j hold hjk

theorem lonerState_fold (l : List Info) :
    ∀ (R P : List Info) (s : DState), l = P ++ R → DedupInv P s → LonerState l P s →
      LonerState l l (R.foldl dedupeStep s) := by
  intro R
  induction R with
  | nil =>
    intro P s hl hb hL
    rw [List.append_nil] at hl
    rw [← hl] at hL
    exact hL
  | cons a R ih =>
    intro P s hl hb hL
    have h1 := lonerState_step l P R a s hl hb hL
    have h2 := dedupeInv_step P s a hb
    have hl2 : l = (P ++ [a]) ++ R := by rw [hl, List.append_assoc]; rfl
    exact ih (P ++ [a]) (dedupeStep s a) hl2 h2 h1

/-- The loners of the input survive deduplication in their input order. -/
theorem dedupe_loners_sublist (l : List Info) :
    List.Sublist (l.filter (fun a => decide (LonerIn l a))) (dedupeArticles l) := by
  have hfin := lonerState_fold l l [] dedupeInit (by simp) dedupeInv_init (lonerState_init l)
  obtain ⟨ks, hpair, hbound, hmap, _⟩ := hfin
  rw [← hmap]
  exact map_getD_sublist default (dedupeRun l).unique ks hpair hbound

theorem perTickerStep_gated (m : List (String × List Info)) (a : RawArticle)
    (h : passesGate a = false) : perTickerStep m a = m := by
  have h2 : sourceQuality (resolvedSource a) < MIN_SOURCE_QUALITY := by
    simpa [passesGate] using h
  unfold perTickerStep
  by_cases ht : a.tickers = []
  · rw [if_pos ht]
  · rw [if_neg ht, if_pos h2]

/-- The quality gate: `score_day` computes the same grouping whether or not
the below-threshold articles are first removed. -/
theorem perTicker_eq_filter_gate (tagged : List RawArticle) :
    perTicker tagged = perTicker (tagged.filter passesGate) := by
  unfold perTicker
  suffices h : ∀ (ts : List RawArticle) (m : List (String × List Info)),
      ts.foldl perTickerStep m = (ts.filter passesGate).foldl perTickerStep m by
    exact h tagged []
  intro ts
  induction ts with
  | nil => intro m; rfl
  | cons a ts ih =>
    intro m
    rcases hg : passesGate a with _ | _
    · rw [List.foldl_cons, List.filter_cons, if_neg (by simp [hg]),
        perTickerStep_gated m a hg]
      exact ih m
    · rw [List.foldl_cons, List.filter_cons, if_pos (by simp [hg]), List.foldl_cons]
      exact ih (perTickerStep m a)

theorem scoreDay_eq_filter_gate (tagged : List RawArticle) :
    scoreDay tagged = scoreDay (tagged.filter passesGate) := by
  unfold scoreDay ideasUnsorted
  rw [perTicker_eq_filter_gate]

/-- Keys of `pushTicker`: unchanged when the key exists, appended otherwise. -/
theorem pushTicker_keys (m : List (String × List Info)) (t : String) (i : Info) :
    (pushTicker m t i).map Prod.fst =
      (if t ∈ m.map Prod.fst then m.map Prod.fst else m.map Prod.fst ++ [t]) := by
  induction m with
  | nil => simp [pushTicker]
  | cons p m ih =>
    rcases p with ⟨k, l⟩
    by_cases hk : k = t
    · subst hk
      rw [pushTicker]
      simp
    · rw [pushTicker, if_neg hk]
      simp only [List.map_cons, ih]
      by_cases hmem : t ∈ m.map Prod.fst
      · rw [if_pos hmem, if_pos (by simp [hmem])]
      · rw [if_neg hmem, if_neg (by simp [hmem]; exact fun he => hk he.symm)]
        simp

theorem pushTicker_fold_keys (ts : List String) (i : RawArticle → String → Info) :
    ∀ (a : RawArticle) (m : List (String × List Info)),
      (ts.foldl (fun acc t => pushTicker acc t (i a t)) m).map Prod.fst =
        ts.foldl (fun acc t => if t ∈ acc then acc else acc ++ [t]) (m.map Prod.fst) := by
  induction ts with
  | nil => intro a m; rfl
  | cons t ts ih =>
    intro a m
    rw [List.foldl_cons, List.foldl_cons, ih]
    congr 1
    rw [pushTicker_keys]

theorem perTickerStep_keys (m : List (String × List Info)) (a : RawArticle) :
    (perTickerStep m a).map Prod.fst = firstSeenStep (m.map Prod.fst) a := by
  unfold perTickerStep firstSeenStep
  by_cases ht : a.tickers = []
  · rw [if_pos ht, if_pos ht]
  · rw [if_neg ht, if_neg ht]
    by_cases hg : sourceQuality (resolvedSource a) < MIN_SOURCE_QUALITY
    · rw [if_pos hg, if_pos hg]
    · rw [if_neg hg, if_neg hg]
      exact pushTicker_fold_keys a.tickers mkInfo a m

/-- The keys of `per_ticker` are the tickers in first-qualifying-appearance
order. -/
theorem perTicker_keys (tagged : List RawArticle) :
    (perTicker tagged).map Prod.fst = firstSeenTickers tagged := by
  unfold perTicker firstSeenTickers
  suffices h : ∀ (ts : List RawArticle) (m : List (String × List Info)),
      (ts.foldl perTickerStep m).map Prod.fst = ts.foldl firstSeenStep (m.map Prod.fst) by
    exact h tagged []
  intro ts
  induction ts with
  | nil => intro m; rfl
  | cons a ts ih =>
    intro m
    rw [List.foldl_cons, List.foldl_cons, ih, perTickerStep_keys]

theorem pushTicker_groups (m : List (String × List Info)) (t : String) (i : Info)
    (h : ∀ p ∈ m, p.2 ≠ []) : ∀ p ∈ pushTicker m t i, p.2 ≠ [] := by
  induction m with
  | nil =>
    intro p hp
    rw [pushTicker] at hp
    have hpe := List.mem_singleton.mp hp
    subst hpe
    simp
  | cons q m ih =>
    rcases q with ⟨k, l⟩
    intro p hp
    rw [pushTicker] at hp
    by_cases hk : k = t
    · rw [if_pos hk] at hp
      rcases List.mem_cons.mp hp with rfl | hp2
      · simp
      · exact h p (List.mem_cons.mpr (Or.inr hp2))
    · rw [if_neg hk] at hp
      rcases List.mem_cons.mp hp with rfl | hp2
      · exact h (k, l) (List.mem_cons.mpr (Or.inl rfl))
      · exact ih (fun q hq => h q (List.mem_cons.mpr (Or.inr hq))) p hp2

/-- Every group of `per_ticker` is non-empty. -/
theorem perTicker_groups_ne_nil (tagged : List RawArticle) :
    ∀ p ∈ perTicker tagged, p.2 ≠ [] := by
  unfold perTicker
  suffices h : ∀ (ts : List RawArticle) (m : List (String × List Info)),
      (∀ p ∈ m, p.2 ≠ []) → ∀ p ∈ ts.foldl perTickerStep m, p.2 ≠ [] by
    exact h tagged [] (by simp)
  intro ts
  induction ts with
  | nil => intro m hm; exact hm
  | cons a ts ih =>
    intro m hm
    apply ih
    unfold perTickerStep
    by_cases ht : a.tickers = []
    · rw [if_pos ht]; exact hm
    · rw [if_neg ht]
      by_cases hg : sourceQuality (resolvedSource a) < MIN_SOURCE_QUALITY
      · rw [if_pos hg]; exact hm
      · rw [if_neg hg]
        suffices hh : ∀ (ts2 : List String) (m2 : List (String × List Info)),
            (∀ p ∈ m2, p.2 ≠ []) →
            ∀ p ∈ ts2.foldl (fun acc t => pushTicker acc t (mkInfo a t)) m2, p.2 ≠ [] by
          exact hh a.tickers m hm
        intro ts2
        induction ts2 with
        | nil => intro m2 hm2; exact hm2
        | cons t ts2 ih2 =>
          intro m2 hm2
          exact ih2 _ (pushTicker_groups m2 t (mkInfo a t) hm2)

/-- `score_day` emits one idea per group, carrying the group's ticker. -/
theorem scoreTicker_of_ne_nil (t : String) (arts : List Info) (h : arts ≠ []) :
    scoreTicker t arts = some
      { ticker := t
        score := round4 (clampScore (compositeScore t (dedupeArticles arts)))
        why := whyList t (dedupeArticles arts)
        links := collectLinks 5 (sortedForLinks (dedupeArticles arts)) } := by
  unfold scoreTicker
  rw [if_neg (dedupeArticles_ne_nil arts h)]

theorem filterMap_scoreTicker_map (m : List (String × List Info))
    (hm : ∀ p ∈ m, p.2 ≠ []) :
    (m.filterMap (fun p => scoreTicker p.1 p.2)).map Idea.ticker = m.map Prod.fst := by
  induction m with
  | nil => simp
  | cons p m ih =>
    rcases p with ⟨t, arts⟩
    have hne : arts ≠ [] := hm (t, arts) (List.mem_cons.mpr (Or.inl rfl))
    rw [List.filterMap_cons]
    rw [scoreTicker_of_ne_nil t arts hne]
    rw [List.map_cons, List.map_cons]
    rw [ih (fun q hq => hm q (List.mem_cons.mpr (Or.inr hq)))]

theorem ideasUnsorted_map_ticker (tagged : List RawArticle) :
    (ideasUnsorted tagged).map Idea.ticker = (perTicker tagged).map Prod.fst := by
  unfold ideasUnsorted
  exact filterMap_scoreTicker_map (perTicker tagged) (perTicker_groups_ne_nil tagged)

/-- Every idea of `score_day` comes from one `per_ticker` group. -/
theorem mem_scoreDay_elim (tagged : List RawArticle) (idea : Idea)
    (h : idea ∈ scoreDay tagged) :
    ∃ arts, (idea.ticker, arts) ∈ perTicker tagged ∧
      scoreTicker idea.ticker arts = some idea := by
  unfold scoreDay at h
  have h2 := (mem_sortKeyD _ _ _).mp h
  unfold ideasUnsorted at h2
  rcases List.mem_filterMap.mp h2 with ⟨p, hp, hsome⟩
  rcases p with ⟨t, arts⟩
  have hne : arts ≠ [] := perTicker_groups_ne_nil tagged (t, arts) hp
  rw [scoreTicker_of_ne_nil t arts hne] at hsome
  have hid := (Option.some.injEq _ _).mp hsome
  have hticker : idea.ticker = t := by rw [← hid]
  subst hticker
  refine ⟨arts, hp, ?_⟩
  rw [scoreTicker_of_ne_nil _ arts hne, hid]

theorem isCenti_divInt (z : ℤ) : isCenti (Rat.divInt z 100) :=
  ⟨z, by rw [Rat.divInt_eq_div]; norm_num⟩

theorem lookupStr_isCenti (l : List (String × ℚ))
    (hl : ∀ v ∈ l.map Prod.snd, isCenti v) (s : String) (q : ℚ)
    (h : lookupStr l s = some q) : isCenti q := by
  induction l with
  | nil => cases h
  | cons p l ih =>
    rcases p with ⟨k, v⟩
    rw [lookupStr] at h
    by_cases hk : s = k
    · rw [if_pos hk] at h
      have := (Option.some.injEq _ _).mp h
      subst this
      exact hl v (by simp)
    · rw [if_neg hk] at h
      exact ih (fun w hw => hl w (by simp [hw])) h

theorem sourceQuality_isCenti (s : String) : isCenti (sourceQuality s) := by
  unfold sourceQuality
  split
  · exact isCenti_divInt 50
  · rcases hl : lookupStr SOURCE_QUALITY_LOOKUP (stringLower (stringStrip s)) with _ | q
    · rw [Option.getD_none]
      exact isCenti_divInt 50
    · rw [Option.getD_some]
      refine lookupStr_isCenti _ ?_ _ _ hl
      intro v hv
      simp only [SOURCE_QUALITY_LOOKUP, SOURCE_QUALITY, List.map_map, List.map_cons,
        List.map_nil, List.mem_cons, List.not_mem_nil, or_false, Function.comp] at hv
      rcases hv with rfl | rfl | rfl | rfl | rfl | rfl | rfl | rfl | rfl | rfl | rfl | rfl |
        rfl | rfl
      all_goals exact isCenti_divInt _

/-- Every scoring record built by `score_day` carries a table quality. -/
theorem perTicker_quality_isCenti (tagged : List RawArticle) :
    ∀ p ∈ perTicker tagged, ∀ i ∈ p.2, isCenti i.source_quality := by
  unfold perTicker
  suffices h : ∀ (ts : List RawArticle) (m : List (String × List Info)),
      (∀ p ∈ m, ∀ i ∈ p.2, isCenti i.source_quality) →
      ∀ p ∈ ts.foldl perTickerStep m, ∀ i ∈ p.2, isCenti i.source_quality by
    exact h tagged [] (by simp)
  have hpush : ∀ (m : List (String × List Info)) (t : String) (x : Info),
      isCenti x.source_quality →
      (∀ p ∈ m, ∀ i ∈ p.2, isCenti i.source_quality) →
      ∀ p ∈ pushTicker m t x, ∀ i ∈ p.2, isCenti i.source_quality := by
    intro m t x hx
    induction m with
    | nil =>
      intro hm p hp i hi
      rw [pushTicker] at hp
      have hpe := List.mem_singleton.mp hp
      subst hpe
      rcases List.mem_singleton.mp hi with rfl
      exact hx
    | cons q m ih =>
      rcases q with ⟨k, l⟩
      intro hm p hp i hi
      rw [pushTicker] at hp
      by_cases hk : k = t
      · rw [if_pos hk] at hp
        rcases List.mem_cons.mp hp with rfl | hp2
        · rcases List.mem_append.mp hi with hi2 | hi2
          · exact hm (k, l) (by simp) i hi2
          · rcases List.mem_singleton.mp hi2 with rfl
            exact hx
        · exact hm p (by simp [hp2]) i hi
      · rw [if_neg hk] at hp
        rcases List.mem_cons.mp hp with rfl | hp2
        · exact hm (k, l) (by simp) i hi
        · exact ih (fun q hq => hm q (by simp [hq])) p hp2 i hi
  intro ts
  induction ts with
  | nil => intro m hm; exact hm
  | cons a ts ih =>
    intro m hm
    apply ih
    unfold perTickerStep
    by_cases ht : a.tickers = []
    · rw [if_pos ht]; exact hm
    · rw [if_neg ht]
      by_cases hg : sourceQuality (resolvedSource a) < MIN_SOURCE_QUALITY
      · rw [if_pos hg]; exact hm
      · rw [if_neg hg]
        suffices hh : ∀ (ts2 : List String) (m2 : List (String × List Info)),
            (∀ p ∈ m2, ∀ i ∈ p.2, isCenti i.source_quality) →
            ∀ p ∈ ts2.foldl (fun acc t => pushTicker acc t (mkInfo a t)) m2, ∀ i ∈ p.2,
              isCenti i.source_quality by
          exact hh a.tickers m hm
        intro ts2
        induction ts2 with
        | nil => intro m2 hm2; exact hm2
        | cons t ts2 ih2 =>
          intro m2 hm2
          apply ih2
          exact hpush m2 t (mkInfo a t) (sourceQuality_isCenti _) hm2

theorem containsTerm_nil (eqc : Char → Char → Bool) (term : List Char) :
    containsTerm eqc term [] = false := by
  unfold containsTerm termMatchAt boundaryAt wordAt
  simp [List.range_succ, isWordChar]

theorem topSources_ne_nil (ds : List Info) (h : ds ≠ []) : topSources ds ≠ [] := by
  unfold topSources
  intro hcon
  rcases List.take_eq_nil_iff.mp hcon with h2 | h2
  · cases h2
  · have hperm := sortKeyD_perm (fun i => i.source_quality) ds
    rw [h2] at hperm
    exact h hperm.nil_eq.symm

theorem topSources_length_le (ds : List Info) : (topSources ds).length ≤ 2 := by
  unfold topSources
  rw [List.length_take]
  exact min_le_left 2 _

theorem mem_topSources (ds : List Info) (i : Info) (h : i ∈ topSources ds) : i ∈ ds := by
  unfold topSources at h
  exact (mem_sortKeyD _ _ _).mp (List.mem_of_mem_take h)

theorem sourceBoost_Mden (ds : List Info)
    (h : ∀ i ∈ ds, isCenti i.source_quality) : Mden (sourceBoost ds) := by
  unfold sourceBoost
  split
  · exact ⟨0, by norm_num⟩
  · rename_i hne
    unfold topQualityAvg
    rw [if_neg hne]
    have hlen := topSources_length_le ds
    rcases hts : topSources ds with _ | ⟨i1, rest⟩
    · exact absurd hts hne
    · rcases rest with _ | ⟨i2, rest2⟩
      · obtain ⟨z1, hz1⟩ := h i1 (mem_topSources ds i1 (by rw [hts]; simp))
        refine ⟨40 * z1 - 2000, ?_⟩
        simp only [List.map_cons, List.map_nil, List.sum_cons, List.sum_nil,
          List.length_cons, List.length_nil, hz1]
        push_cast
        ring
      · have hr2 : rest2 = [] := by
          rw [hts] at hlen
          simp only [List.length_cons] at hlen
          exact List.length_eq_zero.mp (by omega)
        subst hr2
        obtain ⟨z1, hz1⟩ := h i1 (mem_topSources ds i1 (by rw [hts]; simp))
        obtain ⟨z2, hz2⟩ := h i2 (mem_topSources ds i2 (by rw [hts]; simp))
        refine ⟨20 * (z1 + z2) - 2000, ?_⟩
        simp only [List.map_cons, List.map_nil, List.sum_cons, List.sum_nil,
          List.length_cons, List.length_nil, hz1, hz2]
        push_cast
        ring

theorem compositeScore_Mden (t : String) (ds : List Info)
    (h : ∀ i ∈ ds, isCenti i.source_quality) : Mden (compositeScore t ds) := by
  have hbase : Mden (if ds.length ≥ 2 then (3 : ℚ)/10 else 1/10) :=
    Mden_ite _ _ _ ⟨3000, by norm_num⟩ ⟨1000, by norm_num⟩
  have hpos : Mden (min ((2 : ℚ)/10) ((5 : ℚ)/100 * ((unionPos ds).card : ℚ))) :=
    Mden_min _ _ ⟨2000, by norm_num⟩
      ⟨500 * ((unionPos ds).card : ℤ), by push_cast; ring⟩
  have hneg : Mden (min ((2 : ℚ)/10) ((5 : ℚ)/100 * ((unionNeg ds).card : ℚ))) :=
    Mden_min _ _ ⟨2000, by norm_num⟩
      ⟨500 * ((unionNeg ds).card : ℤ), by push_cast; ring⟩
  have hboost := sourceBoost_Mden ds h
  have hs0 : Mden ((if ds.length ≥ 2 then (3 : ℚ)/10 else 1/10)
      + min ((2 : ℚ)/10) ((5 : ℚ)/100 * ((unionPos ds).card : ℚ))
      - min ((2 : ℚ)/10) ((5 : ℚ)/100 * ((unionNeg ds).card : ℚ))
      + sourceBoost ds) :=
    Mden_add _ _ (Mden_sub _ _ (Mden_add _ _ hbase hpos) hneg) hboost
  have h500 : Mden ((5 : ℚ)/100) := ⟨500, by norm_num⟩
  have hs1 : Mden (if qInTitle t ds then
      (if ds.length ≥ 2 then (3 : ℚ)/10 else 1/10)
      + min ((2 : ℚ)/10) ((5 : ℚ)/100 * ((unionPos ds).card : ℚ))
      - min ((2 : ℚ)/10) ((5 : ℚ)/100 * ((unionNeg ds).card : ℚ))
      + sourceBoost ds + (5 : ℚ)/100
    else
      (if ds.length ≥ 2 then (3 : ℚ)/10 else 1/10)
      + min ((2 : ℚ)/10) ((5 : ℚ)/100 * ((unionPos ds).card : ℚ))
      - min ((2 : ℚ)/10) ((5 : ℚ)/100 * ((unionNeg ds).card : ℚ))
      + sourceBoost ds) :=
    Mden_ite _ _ _ (Mden_add _ _ hs0 h500) hs0
  simp only [compositeScore]
  exact Mden_ite _ _ _ (Mden_add _ _ hs1 h500) hs1

theorem qInTitle_eq_any (t : String) (ds : List Info) :
    qInTitle t ds = ds.any (fun i =>
      containsTermCS (stringLower t).data i.normalized_title.data) := by
  have hfun : ∀ i : Info,
      (decide (i.normalized_title ≠ "")
        && containsTermCS (stringLower t).data i.normalized_title.data)
      = containsTermCS (stringLower t).data i.normalized_title.data := by
    intro i
    by_cases ht : i.normalized_title = ""
    · have hd : i.normalized_title.data = [] := by rw [ht]
      simp [ht, hd, containsTermCS, containsTerm_nil]
    · simp [ht]
  unfold qInTitle
  simp only [hfun]

/-- On a non-empty deduplicated list the emitted clamped composite score is
exactly the specification's formula. -/
theorem specScore_eq (t : String) (ds : List Info) (h : ds ≠ []) :
    clampScore (compositeScore t ds) = specScore t ds := by
  have htop := topSources_ne_nil ds h
  unfold compositeScore specScore
  rw [qInTitle_eq_any]
  unfold sourceBoost
  rw [if_neg htop]
  unfold topQualityAvg
  rw [if_neg htop]
  unfold topSources
  simp only [ge_iff_le]
  congr 1
  split_ifs
  all_goals ring_nf

/-- The link-collection loop emits exactly the first `cap` links with a
non-empty url, in order. -/
theorem collectLinks_eq (cap : Nat) (l : List Info) :
    collectLinks cap l = ((l.filter (fun i => i.url ≠ "")).take cap).map linkOf := by
  induction l generalizing cap with
  | nil => simp [collectLinks]
  | cons i rest ih =>
    rw [collectLinks]
    by_cases hc : cap = 0
    · subst hc
      simp
    · rw [if_neg hc]
      by_cases hu : i.url = ""
      · rw [if_pos hu, ih cap, List.filter_cons, if_neg (by simp [hu])]
      · rw [if_neg hu, ih (cap - 1), List.filter_cons, if_pos (by simp [hu])]
        obtain ⟨c2, rfl⟩ := Nat.exists_eq_succ_of_ne_zero hc
        simp

/-- `isCandidateBetter` holds exactly on strictly higher quality, or equal
quality and strictly later timestamp. -/
theorem isCandidateBetter_iff (c e : Info) :
    isCandidateBetter c e = true ↔
      (e.source_quality < c.source_quality
        ∨ (e.source_quality = c.source_quality
            ∧ e.published_at_dt < c.published_at_dt)) := by
  unfold isCandidateBetter
  by_cases hq : c.source_quality ≠ e.source_quality
  · rw [if_pos hq]
    simp only [decide_eq_true_eq]
    constructor
    · intro h2
      exact Or.inl h2
    · intro h2
      rcases h2 with h2 | ⟨h2, _⟩
      · exact h2
      · exact absurd h2.symm hq
  · rw [if_neg hq]
    push_neg at hq
    simp only [decide_eq_true_eq]
    constructor
    · intro h2
      exact Or.inr ⟨hq.symm, h2⟩
    · intro h2
      rcases h2 with h2 | ⟨_, h2⟩
      · exact absurd hq (by rw [hq] at h2; exact absurd h2 (lt_irrefl _))
      · exact h2

/-- Deduplicating two colliding articles keeps exactly the preferred one. -/
theorem dedupe_pair (a b : Info) (hs : SharesKey a b) :
    dedupeArticles [a, b] = [specPreferred a b] := by
  have hstep1 : List.foldl dedupeStep dedupeInit [a, b] =
      dedupeStep (dedupeStep dedupeInit a) b := rfl
  have hlook1 : dedupeLookup dedupeInit a = none := by
    simp [dedupeLookup, dedupeInit]
  have hs1 : dedupeStep dedupeInit a =
      ⟨[a],
       if a.normalized_title ≠ "" then updIdx dedupeInit.tIdx a.normalized_title 0
         else dedupeInit.tIdx,
       if a.url ≠ "" then updIdx dedupeInit.uIdx a.url 0 else dedupeInit.uIdx⟩ := by
    rw [dedupeStep_none _ _ hlook1]
    rfl
  have hlook2 : dedupeLookup (dedupeStep dedupeInit a) b = some 0 := by
    rw [hs1]
    unfold dedupeLookup
    rcases hs with ⟨hat, heq⟩ | ⟨hau, hequ⟩
    · have hbt : b.normalized_title ≠ "" := by rw [← heq]; exact hat
      rw [if_pos hbt]
      dsimp only
      rw [if_pos hat, ← heq, updIdx_self]
    · by_cases hbt : b.normalized_title ≠ ""
      · rw [if_pos hbt]
        dsimp only
        by_cases hat : a.normalized_title ≠ ""
        · rw [if_pos hat]
          by_cases hba : b.normalized_title = a.normalized_title
          · rw [hba, updIdx_self]
          · rw [updIdx_other _ _ _ _ hba]
            show (if b.url ≠ "" then
                (if a.url ≠ "" then updIdx dedupeInit.uIdx a.url 0
                  else dedupeInit.uIdx) b.url
              else none) = some 0
            rw [if_pos (show b.url ≠ "" by rw [← hequ]; exact hau), if_pos hau, ← hequ,
              updIdx_self]
        · rw [if_neg hat]
          show (if b.url ≠ "" then
              (if a.url ≠ "" then updIdx dedupeInit.uIdx a.url 0
                else dedupeInit.uIdx) b.url
            else none) = some 0
          rw [if_pos (show b.url ≠ "" by rw [← hequ]; exact hau), if_pos hau, ← hequ,
            updIdx_self]
      · rw [if_neg hbt]
        show (if b.url ≠ "" then
            (if a.url ≠ "" then updIdx dedupeInit.uIdx a.url 0
              else dedupeInit.uIdx) b.url
          else none) = some 0
        rw [if_pos (show b.url ≠ "" by rw [← hequ]; exact hau), if_pos hau, ← hequ,
          updIdx_self]
  have hgd : ([a] : List Info).getD 0 default = a := rfl
  unfold dedupeArticles dedupeRun
  rw [hstep1, dedupeStep_some _ _ _ hlook2]
  dsimp only
  rw [hs1]
  dsimp only
  rw [hgd]
  unfold specPreferred
  by_cases hbet : isCandidateBetter b a = true
  · rw [if_pos hbet, if_pos ((isCandidateBetter_iff b a).mp hbet)]
    rfl
  · rw [if_neg hbet, if_neg (fun hc => hbet ((isCandidateBetter_iff b a).mpr hc))]

theorem upsert_of_not_mem (m : List (String × List String)) (k : String)
    (v : List String) (h : k ∉ m.map Prod.fst) : upsert m k v = m ++ [(k, v)] := by
  induction m with
  | nil => rfl
  | cons p m ih =>
    rcases p with ⟨k0, v0⟩
    rw [upsert]
    rw [if_neg (by intro he; exact h (by simp [he]))]
    rw [ih (by intro he; exact h (by simp [he]))]
    rfl

theorem matchersOf_foldl (rows : List UniverseRow) :
    ∀ (acc : List (String × List String)),
      (acc.map Prod.fst ++ processedTickers rows).Nodup →
      rows.foldl matchersStep acc =
      acc ++ (rows.filter (fun r => stringStrip r.ticker ≠ "")).map
        (fun r => (stringStrip r.ticker, rowTerms r)) := by
  induction rows with
  | nil =>
    intro acc _
    simp
  | cons r rest ih =>
    intro acc hnd
    rw [List.foldl_cons, List.filter_cons, matchersStep]
    by_cases ht : stringStrip r.ticker = ""
    · rw [if_pos ht, if_neg (by simp [ht])]
      apply ih
      have hpt : processedTickers (r :: rest) = processedTickers rest := by
        unfold processedTickers
        rw [List.map_cons, List.filter_cons, if_neg (by simp [ht])]
      rw [← hpt]
      exact hnd
    · have hpt : processedTickers (r :: rest) =
          stringStrip r.ticker :: processedTickers rest := by
        unfold processedTickers
        rw [List.map_cons, List.filter_cons, if_pos (by simp [ht])]
      rw [if_neg ht, if_pos (by simp [ht])]
      have hnotin : stringStrip r.ticker ∉ acc.map Prod.fst := by
        rw [hpt] at hnd
        intro hmem
        have hdis := (List.nodup_append.mp hnd).2.2
        exact hdis hmem (by simp)
      rw [upsert_of_not_mem acc _ _ hnotin]
      have hnd2 : ((acc ++ [(stringStrip r.ticker, rowTerms r)]).map Prod.fst
          ++ processedTickers rest).Nodup := by
        rw [hpt] at hnd
        have h2 : List.Perm
            ((acc ++ [(stringStrip r.ticker, rowTerms r)]).map Prod.fst
              ++ processedTickers rest)
            (acc.map Prod.fst ++ (stringStrip r.ticker :: processedTickers rest)) := by
          rw [List.map_append, List.append_assoc]
          exact List.Perm.append_left _ (by simp)
        exact h2.nodup_iff.mpr hnd
      rw [ih (acc ++ [(stringStrip r.ticker, rowTerms r)]) hnd2]
      simp

/-- Under distinct processed tickers, the matcher dict is just the
filtered, processed row list. -/
theorem matchersOf_eq (rows : List UniverseRow)
    (hnd : (processedTickers rows).Nodup) :
    matchersOf rows = (rows.filter (fun r => stringStrip r.ticker ≠ "")).map
      (fun r => (stringStrip r.ticker, rowTerms r)) := by
  unfold matchersOf
  rw [matchersOf_foldl rows [] (by simpa using hnd)]
  simp

theorem mem_tagArticle_tickers (matchers : List (String × List String))
    (a : RawArticle) (t : String) :
    t ∈ (tagArticle matchers a).tickers ↔
      ∃ terms, (t, terms) ∈ matchers
        ∧ anyTermMatches terms (a.title ++ " " ++ a.body) = true := by
  unfold tagArticle
  simp only []
  rw [mem_sortKeyD, List.mem_dedup]
  rw [List.mem_filterMap]
  constructor
  · rintro ⟨p, hp, hsome⟩
    by_cases hc : anyTermMatches p.2 (a.title ++ " " ++ a.body) = true
    · rw [if_pos hc] at hsome
      have := (Option.some.injEq _ _).mp hsome
      subst this
      exact ⟨p.2, hp, hc⟩
    · rw [if_neg hc] at hsome
      cases hsome
  · rintro ⟨terms, hmem, hmatch⟩
    exact ⟨(t, terms), hmem, by rw [if_pos hmatch]⟩

theorem tagArticle_tickers_sorted (matchers : List (String × List String))
    (a : RawArticle) : (tagArticle matchers a).tickers.Pairwise (· < ·) := by
  unfold tagArticle
  simp only []
  have hpair := sortKeyD_pairwise (fun s : String => OrderDual.toDual s)
    (List.dedup (matchers.filterMap (fun p =>
      if anyTermMatches p.2 (a.title ++ " " ++ a.body) then some p.1 else none)))
  have hle : (sortKeyD (fun s : String => OrderDual.toDual s)
      (List.dedup (matchers.filterMap (fun p =>
        if anyTermMatches p.2 (a.title ++ " " ++ a.body) then some p.1 else none)))).Pairwise
      (· ≤ ·) := by
    apply hpair.imp
    intro x y h
    exact h
  have hnd : (sortKeyD (fun s : String => OrderDual.toDual s)
      (List.dedup (matchers.filterMap (fun p =>
        if anyTermMatches p.2 (a.title ++ " " ++ a.body) then some p.1 else none)))).Nodup := by
    apply (sortKeyD_perm _ _).nodup_iff.mpr
    exact List.nodup_dedup _
  have := hle.and hnd
  apply this.imp
  intro x y h
  exact lt_of_le_of_ne h.1 h.2

theorem getD_mem_of_lt {α : Type} (l : List α) (n : Nat) (d : α) (h : n < l.length) :
    l.getD n d ∈ l := by
  rw [List.getD_eq_getElem _ _ h]
  exact List.getElem_mem h

/-- C2, counterexample: the input `[exI1, exI2, exI3]` is a single
transitive story (`exI1` and `exI3` share a non-empty normalized title,
`exI3` and `exI2` share a non-empty url), yet `_dedupe_articles` returns
two representatives: `exI3` merged over `exI1` by title, while `exI2`
survives untouched.  The claim's "exactly one representative per transitive
class" is false. -/
theorem claim2_counterexample :
    dedupeArticles [exI1, exI2, exI3] = [exI3, exI2]
    ∧ SharesKey exI1 exI3
    ∧ SharesKey exI3 exI2
    ∧ (dedupeArticles [exI1, exI2, exI3]).length = 2 := by
  refine ⟨by decide, by decide, by decide, by decide⟩

/-- C2, amended: two articles sharing a non-empty normalized title are
always merged into one slot, so no two representatives share a non-empty
normalized title; and articles that collide with nothing survive in their
first-seen order (the loners of the input are a sublist of the output).
Chains that mix the two keys need not collapse, as the counterexample
shows. -/
theorem claim2_amended (l : List Info) :
    (dedupeArticles l).Pairwise (fun x y =>
      x.normalized_title = "" ∨ x.normalized_title ≠ y.normalized_title)
    ∧ List.Sublist (l.filter (fun a => decide (LonerIn l a))) (dedupeArticles l) :=
  ⟨dedupeArticles_titles_pairwise l, dedupe_loners_sublist l⟩

/-- C3, counterexample: with a present but empty universe (zero entries),
tagging does not fail with any error; it silently proceeds and attaches an
empty ticker list to the article. -/
theorem claim3_counterexample :
    linkArticlesToTickers [exTagArt] (some []) =
      Except.ok [⟨"Apple and Microsoft extend rally", "", "", "strong growth",
        "", "", "", []⟩] := by
  rfl

/-- C3, amended: a missing universe file aborts tagging, but with a
`FileNotFoundError` (the code defines no `ConfigurationError`); a universe
file with zero entries does not abort: every article is tagged with an
empty ticker list. -/
theorem claim3_amended (articles : List RawArticle) :
    linkArticlesToTickers articles none = Except.error TagError.fileNotFound
    ∧ linkArticlesToTickers articles (some []) =
        Except.ok (articles.map (fun a => { a with tickers := [] })) := by
  exact ⟨rfl, rfl⟩

/-- C5: when two articles collide, the survivor is the one preferred by the
specification's policy (strictly higher source quality, then later parsed
timestamp, otherwise the incumbent), the loser is dropped entirely, and
`_is_candidate_better` decides exactly that strict preference. -/
theorem claim5_tiebreak (a b : Info) (h : SharesKey a b) :
    dedupeArticles [a, b] = [specPreferred a b]
    ∧ (dedupeArticles [a, b]).length = 1
    ∧ (isCandidateBetter b a = true ↔
        (a.source_quality < b.source_quality
          ∨ (a.source_quality = b.source_quality
              ∧ a.published_at_dt < b.published_at_dt))) := by
  refine ⟨dedupe_pair a b h, ?_, isCandidateBetter_iff b a⟩
  rw [dedupe_pair a b h]
  rfl

/-- C5, witness: two articles sharing a url; the higher-quality one is the
sole survivor. -/
theorem claim5_witness :
    dedupeArticles [exI2, exI3] = [specPreferred exI2 exI3]
    ∧ (dedupeArticles [exI2, exI3]).length = 1
    ∧ (isCandidateBetter exI3 exI2 = true ↔
        (exI2.source_quality < exI3.source_quality
          ∨ (exI2.source_quality = exI3.source_quality
              ∧ exI2.published_at_dt < exI3.published_at_dt))) :=
  claim5_tiebreak exI2 exI3 (by decide)

/-- C8, counterexample: the epoch default for malformed timestamps does not
sort last under descending date order: a well-formed pre-1970 timestamp
parses below it, so the malformed article sorts before that valid one. -/
theorem claim8_counterexample :
    parseDatetime "1969-06-01T00:00:00Z" < parseDatetime ""
    ∧ parseDatetime "" = 0 := by
  refine ⟨by decide, rfl⟩

/-- C8, amended: parsing accepts ISO-8601 with a trailing literal `Z` as
the UTC offset; empty and unparsable inputs yield the Unix epoch instead of
an error, so malformed timestamps never abort scoring and sort last among
articles with post-epoch timestamps (valid pre-1970 timestamps sort later
still). -/
theorem claim8_amended :
    parseDatetime "" = 0
    ∧ parseDatetime "not a timestamp" = 0
    ∧ parseDatetime "2025-13-01T00:00:00" = 0
    ∧ parseDatetime "2025-09-17T08:00:00Z" = 1758096000
    ∧ parseDatetime "2025-09-17T08:00:00+00:00" = 1758096000
    ∧ (∀ s : String, s ≠ "" → fromisoformatChars (replaceZChars s.data) = none →
        parseDatetime s = 0)
    ∧ (∀ z : Int, 0 ≤ z → parseDatetime "" ≤ z) := by
  refine ⟨rfl, by decide, by decide, by decide, by decide, ?_, ?_⟩
  · intro s hs hnone
    unfold parseDatetime
    rw [if_neg hs, hnone]
  · intro z hz
    unfold parseDatetime
    rw [if_pos rfl]
    exact hz

/-- C8, witness: a concrete unparsable timestamp falls back to the epoch,
which sorts before any post-epoch instant under descending order. -/
theorem claim8_witness :
    parseDatetime "zzz" = 0 ∧ parseDatetime "" ≤ 86400 := by
  refine ⟨claim8_amended.2.2.2.2.2.1 "zzz" (by decide) (by decide),
    claim8_amended.2.2.2.2.2.2 86400 (by decide)⟩

/-- C6: tagging returns, for every article, exactly the tickers one of
whose terms (stripped ticker, name, or alias) occurs word-bounded and
case-insensitively in the article's combined title-and-body text, each
ticker once, in sorted order; substring occurrences never match because
every compiled pattern is `\b`-bounded on both sides. -/
theorem claim6_tagging (rows : List UniverseRow) (articles : List RawArticle)
    (a : RawArticle) (t : String) (hnd : (processedTickers rows).Nodup) :
    linkArticlesToTickers articles (some rows)
        = Except.ok (articles.map (tagArticle (matchersOf rows)))
    ∧ (t ∈ (tagArticle (matchersOf rows) a).tickers ↔
        ∃ r ∈ rows, stringStrip r.ticker = t ∧ t ≠ "" ∧
          ∃ term ∈ rowTerms r,
            containsTermCI term.data (a.title ++ " " ++ a.body).data = true)
    ∧ (tagArticle (matchersOf rows) a).tickers.Pairwise (· < ·) := by
  refine ⟨rfl, ?_, tagArticle_tickers_sorted _ a⟩
  rw [mem_tagArticle_tickers]
  constructor
  · rintro ⟨terms, hmem, hmatch⟩
    rw [matchersOf_eq rows hnd] at hmem
    rcases List.mem_map.mp hmem with ⟨r, hr, heq⟩
    have hr2 := List.mem_filter.mp hr
    have h1 : stringStrip r.ticker = t := congrArg Prod.fst heq
    have h2 : rowTerms r = terms := congrArg Prod.snd heq
    refine ⟨r, hr2.1, h1, by rw [← h1]; simpa using hr2.2, ?_⟩
    rw [← h2] at hmatch
    exact List.any_eq_true.mp hmatch
  · rintro ⟨r, hr, hstrip, hne, term, hterm, hct⟩
    refine ⟨rowTerms r, ?_, ?_⟩
    · rw [matchersOf_eq rows hnd]
      apply List.mem_map.mpr
      exact ⟨r, List.mem_filter.mpr ⟨hr, by simp [hstrip, hne]⟩, by rw [hstrip]⟩
    · exact List.any_eq_true.mpr ⟨term, hterm, hct⟩

/-- C6, witness: with a two-row universe, AAPL is tagged on an article
mentioning Apple. -/
theorem claim6_witness :
    "AAPL" ∈ (tagArticle (matchersOf exRows) exTagArt).tickers ↔
      ∃ r ∈ exRows, stringStrip r.ticker = "AAPL" ∧ ("AAPL" : String) ≠ "" ∧
        ∃ term ∈ rowTerms r,
          containsTermCI term.data (exTagArt.title ++ " " ++ exTagArt.body).data = true :=
  (claim6_tagging exRows [exTagArt] exTagArt "AAPL" (by decide)).2.1

/-- C7: articles whose resolved source quality is strictly below 0.50 are
excluded from scoring (and hence from why and links) for every ticker:
`score_day` on any input equals `score_day` on the gate-passing subset; and
a publisher missing from the table resolves to exactly the 0.50 default and
passes the gate. -/
theorem claim7_gate (tagged : List RawArticle) (a : RawArticle)
    (hunk : lookupStr SOURCE_QUALITY_LOOKUP
      (stringLower (stringStrip (resolvedSource a))) = none) :
    scoreDay tagged = scoreDay (tagged.filter passesGate)
    ∧ sourceQuality (resolvedSource a) = DEFAULT_SOURCE_QUALITY
    ∧ passesGate a = true := by
  have hres : resolvedSource a ≠ "" := by
    unfold resolvedSource
    split
    · decide
    · rename_i h
      exact h
  have hq : sourceQuality (resolvedSource a) = DEFAULT_SOURCE_QUALITY := by
    unfold sourceQuality
    rw [if_neg hres, hunk]
    rfl
  refine ⟨scoreDay_eq_filter_gate tagged, hq, ?_⟩
  unfold passesGate
  rw [hq]
  decide

/-- C7, witness: an unknown publisher gets quality exactly 0.50 and its
article passes the gate. -/
theorem claim7_witness :
    scoreDay [exSingle] = scoreDay ([exSingle].filter passesGate)
    ∧ sourceQuality (resolvedSource exUnknown) = DEFAULT_SOURCE_QUALITY
    ∧ passesGate exUnknown = true :=
  claim7_gate [exSingle] exUnknown (by decide)

/-- C10: every emitted score is the clamped raw composite rounded half-even
to 4 decimal places; it stays within [0, 1] after rounding, and 10000 times
it is an integer (at most 4 decimal digits). -/
theorem claim10_rounding (tagged : List RawArticle) (idea : Idea)
    (h : idea ∈ scoreDay tagged) :
    ∃ arts, (idea.ticker, arts) ∈ perTicker tagged
      ∧ idea.score =
          round4 (clampScore (compositeScore idea.ticker (dedupeArticles arts)))
      ∧ 0 ≤ idea.score ∧ idea.score ≤ 1
      ∧ ∃ z : ℤ, idea.score * 10000 = z := by
  obtain ⟨arts, hmem, hsome⟩ := mem_scoreDay_elim tagged idea h
  have hne : arts ≠ [] := perTicker_groups_ne_nil tagged (idea.ticker, arts) hmem
  rw [scoreTicker_of_ne_nil _ _ hne] at hsome
  have hid := (Option.some.injEq _ _).mp hsome
  have hscore : idea.score =
      round4 (clampScore (compositeScore idea.ticker (dedupeArticles arts))) := by
    rw [← hid]
  have hb := clampScore_bounds (compositeScore idea.ticker (dedupeArticles arts))
  have hr := round4_bounds _ hb.1 hb.2
  refine ⟨arts, hmem, hscore, ?_, ?_, ?_⟩
  · rw [hscore]
    exact hr.1
  · rw [hscore]
    exact hr.2
  · rw [hscore]
    exact round4_Mden _

/-- C10, witness: the single idea of a one-article batch. -/
theorem claim10_witness :
    ∃ arts, (((scoreDay [exSingle]).getD 0 default).ticker, arts) ∈ perTicker [exSingle]
      ∧ ((scoreDay [exSingle]).getD 0 default).score =
          round4 (clampScore (compositeScore
            ((scoreDay [exSingle]).getD 0 default).ticker (dedupeArticles arts)))
      ∧ 0 ≤ ((scoreDay [exSingle]).getD 0 default).score
      ∧ ((scoreDay [exSingle]).getD 0 default).score ≤ 1
      ∧ ∃ z : ℤ, ((scoreDay [exSingle]).getD 0 default).score * 10000 = z :=
  claim10_rounding [exSingle] _ (getD_mem_of_lt _ 0 default (by decide))

/-- C4: every emitted score is exactly the specification's formula
(`specScore`) applied to the ticker's deduplicated articles: here the
4-decimal rounding is the identity because every quality is a two-decimal
table value, making the raw composite an exact multiple of 1/10000. -/
theorem claim4_formula (tagged : List RawArticle) (idea : Idea)
    (h : idea ∈ scoreDay tagged) :
    ∃ arts, (idea.ticker, arts) ∈ perTicker tagged
      ∧ idea.score = specScore idea.ticker (dedupeArticles arts) := by
  obtain ⟨arts, hmem, hsome⟩ := mem_scoreDay_elim tagged idea h
  have hne : arts ≠ [] := perTicker_groups_ne_nil tagged (idea.ticker, arts) hmem
  rw [scoreTicker_of_ne_nil _ _ hne] at hsome
  have hid := (Option.some.injEq _ _).mp hsome
  have hscore : idea.score =
      round4 (clampScore (compositeScore idea.ticker (dedupeArticles arts))) := by
    rw [← hid]
  have hcenti : ∀ i ∈ dedupeArticles arts, isCenti i.source_quality := fun i hi =>
    perTicker_quality_isCenti tagged (idea.ticker, arts) hmem i
      (mem_of_mem_dedupeArticles arts i hi)
  have hM : Mden (clampScore (compositeScore idea.ticker (dedupeArticles arts))) :=
    Mden_clamp _ (compositeScore_Mden _ _ hcenti)
  have hdne : dedupeArticles arts ≠ [] := dedupeArticles_ne_nil arts hne
  refine ⟨arts, hmem, ?_⟩
  rw [hscore, round4_eq_self _ hM, specScore_eq _ _ hdne]

/-- C4, witness: the single idea of a one-article batch. -/
theorem claim4_witness :
    ∃ arts, (((scoreDay [exSingle]).getD 0 default).ticker, arts) ∈ perTicker [exSingle]
      ∧ ((scoreDay [exSingle]).getD 0 default).score =
          specScore ((scoreDay [exSingle]).getD 0 default).ticker (dedupeArticles arts) :=
  claim4_formula [exSingle] _ (getD_mem_of_lt _ 0 default (by decide))

/-- C1, counterexample: a title merge strands a url duplicate, so an Idea's
links can repeat a url: the claim's "no two entries share the same url" is
false. -/
theorem claim1_counterexample :
    (scoreDay exC1).map (fun i => i.links.map Link.url) = [["u2", "u2"]]
    ∧ ¬ (((scoreDay exC1).getD 0 default).links.map Link.url).Nodup := by
  refine ⟨by decide, by decide⟩

/-- C1, amended: every Idea's links hold at most 5 entries, each with a
non-empty url, emitted in descending `(source_quality, published_at_dt)`
order of the deduplicated articles they were built from; distinct entries
may however repeat a url when separate representatives carry the same
url. -/
theorem claim1_links (tagged : List RawArticle) (idea : Idea)
    (h : idea ∈ scoreDay tagged) :
    idea.links.length ≤ 5
    ∧ (∀ e ∈ idea.links, e.url ≠ "")
    ∧ ∃ arts infos, (idea.ticker, arts) ∈ perTicker tagged
        ∧ List.Sublist infos (sortedForLinks (dedupeArticles arts))
        ∧ infos.Pairwise (fun x y => linkKey y ≤ linkKey x)
        ∧ idea.links = infos.map linkOf := by
  obtain ⟨arts, hmem, hsome⟩ := mem_scoreDay_elim tagged idea h
  have hne : arts ≠ [] := perTicker_groups_ne_nil tagged (idea.ticker, arts) hmem
  rw [scoreTicker_of_ne_nil _ _ hne] at hsome
  have hid := (Option.some.injEq _ _).mp hsome
  have hlinks : idea.links = collectLinks 5 (sortedForLinks (dedupeArticles arts)) := by
    rw [← hid]
  rw [collectLinks_eq] at hlinks
  refine ⟨?_, ?_, arts,
    ((sortedForLinks (dedupeArticles arts)).filter (fun i => i.url ≠ "")).take 5,
    hmem, ?_, ?_, hlinks⟩
  · rw [hlinks, List.length_map]
    exact List.length_take_le 5 _
  · intro e he
    rw [hlinks] at he
    rcases List.mem_map.mp he with ⟨i, hi, rfl⟩
    have hi2 := List.mem_of_mem_take hi
    have := List.of_mem_filter hi2
    simpa using this
  · exact (List.take_sublist _ _).trans (List.filter_sublist _)
  · exact List.Pairwise.sublist ((List.take_sublist _ _).trans (List.filter_sublist _))
      (sortKeyD_pairwise linkKey (dedupeArticles arts))

/-- C1, witness: the single idea of a one-article batch. -/
theorem claim1_witness :
    ((scoreDay [exSingle]).getD 0 default).links.length ≤ 5
    ∧ (∀ e ∈ ((scoreDay [exSingle]).getD 0 default).links, e.url ≠ "")
    ∧ ∃ arts infos,
        (((scoreDay [exSingle]).getD 0 default).ticker, arts) ∈ perTicker [exSingle]
        ∧ List.Sublist infos (sortedForLinks (dedupeArticles arts))
        ∧ infos.Pairwise (fun x y => linkKey y ≤ linkKey x)
        ∧ ((scoreDay [exSingle]).getD 0 default).links = infos.map linkOf :=
  claim1_links [exSingle] _ (getD_mem_of_lt _ 0 default (by decide))

/-- C9, counterexample: in `exC9` the ticker AAA appears first in the
tagged input (on a below-gate article), BBB second; the two emitted ideas
have equal scores, yet BBB is listed first: equal-score ideas follow the
order of the tickers' first *gate-passing* occurrence, not their first
appearance in the tagged input. -/
theorem claim9_counterexample :
    (scoreDay exC9).map Idea.ticker = ["BBB", "AAA"]
    ∧ (∃ q : ℚ, (scoreDay exC9).map Idea.score = [q, q])
    ∧ exC9.map RawArticle.tickers = [["AAA"], ["BBB"], ["AAA"]] := by
  have e1 : perTicker exC9 =
      [("BBB", [mkInfo exAR1 "BBB"]), ("AAA", [mkInfo exAR2 "AAA"])] := by rfl
  have o1 : scoreTicker "BBB" [mkInfo exAR1 "BBB"] = some exIdeaB :=
    scoreTicker_of_ne_nil "BBB" [mkInfo exAR1 "BBB"] (by simp)
  have o2 : scoreTicker "AAA" [mkInfo exAR2 "AAA"] = some exIdeaA :=
    scoreTicker_of_ne_nil "AAA" [mkInfo exAR2 "AAA"] (by simp)
  have hsc : exIdeaA.score = exIdeaB.score := rfl
  have e2 : ideasUnsorted exC9 = [exIdeaB, exIdeaA] := by
    unfold ideasUnsorted
    rw [e1]
    simp only [List.filterMap_cons, List.filterMap_nil]
    rw [o1, o2]
  have e3 : scoreDay exC9 = [exIdeaB, exIdeaA] := by
    unfold scoreDay
    rw [e2]
    show insertKeyD (fun i : Idea => i.score) exIdeaA
      (insertKeyD (fun i : Idea => i.score) exIdeaB []) = [exIdeaB, exIdeaA]
    rw [insertKeyD, insertKeyD, if_pos (le_of_eq hsc)]
    rfl
  refine ⟨by rw [e3]; rfl, ⟨exIdeaB.score, by rw [e3]; simp [hsc]⟩, by rfl⟩

/-- C9, amended: the emitted ideas are sorted by score descending; ideas
with equal scores keep the pre-sort order, which lists tickers by the first
appearance of a gate-passing tagged article (a ticker whose first mention
is on a below-gate article is ordered by its first qualifying mention
instead). -/
theorem claim9_ordering (tagged : List RawArticle) :
    (scoreDay tagged).Pairwise (fun x y => y.score ≤ x.score)
    ∧ (∀ c : ℚ, (scoreDay tagged).filter (fun i => i.score = c)
        = (ideasUnsorted tagged).filter (fun i => i.score = c))
    ∧ (ideasUnsorted tagged).map Idea.ticker = firstSeenTickers tagged := by
  refine ⟨sortKeyD_pairwise _ _, ?_, ?_⟩
  · intro c
    exact sortKeyD_filter_eq (fun i : Idea => i.score) (ideasUnsorted tagged) c
  · rw [ideasUnsorted_map_ticker, perTicker_keys]
